import Mathlib

/-!
Verification of the `pratts` library (`src/pratts/pratts.py`): generation and
verification of Pratt primality certificates.

The embedding below mirrors the two Python functions:

* `_lucas(n, factors)` — a randomized Lucas-theorem witness search
  (100 trials, each drawing `a = 2 + randbelow(n - 2)`);
* `pratts(argument, primes, partial)` — the certificate builder.

Modelling choices, each justified by the source:

* Python integers at the public boundary are `Int` (the code accepts and
  validates possibly non-positive values); after validation every value the
  algorithm touches is non-negative, and the core runs on `Nat`, whose `%`,
  `/` and `^` agree with Python's `%`, `//` and `pow` on non-negative ints.
* `secrets.randbelow` consumes entropy.  A single `_lucas` call is modelled
  by `lucasFn σ n factors` where `σ : Nat → Nat` is the stream of raw draws
  of that call; draw `i` with positive bound `b` yields `σ i % b`, so the set
  of possible values of a draw is exactly `[0, b)`, matching `randbelow b`.
  `randbelow` with a non-positive bound raises `ValueError`
  (`randbelowValueError` below), which happens exactly when `n ≤ 1`.
* The builder is parametrised by an `Oracle` giving the outcome of each
  `_lucas (n, factors)` call.  An oracle is `Realizable` when each of its
  answers is producible by some draw stream; since the draws of distinct
  `_lucas` calls are independent, the possible behaviours of the Python
  program are exactly the runs with a realizable oracle.
* Python exceptions become the `Except PErr` monad.  `TypeError` branches
  (non-int argument, non-iterable pool, non-int pool element) are outside a
  typed embedding and are not modelled; both `ValueError` branches and both
  `RuntimeError` branches are.
* Python dicts are association lists with insertion order; `dict.update`
  overwrites the value of an existing key in place and appends new keys,
  which is exactly `updateEntry` below.  `factors` is a Python set of small
  ints collected from an ascending scan, modelled as the ascending
  duplicate-free list of divisors in discovery order; the program only
  iterates it, sorts it, and passes it to `_lucas`'s order-insensitive `all`.
* Recursion depth is bounded (each recursive call strictly decreases the
  maximum of pool and argument), modelled by a `fuel` parameter; `outOfFuel`
  is an artefact of the embedding, not a program behaviour, and every
  theorem about terminating runs either assumes enough fuel or is
  conditioned on a result other than `outOfFuel`.
-/

namespace Pratts

/-- Failure outcomes of `pratts` (and the embedding's fuel artefact).
`valueErrorArgument` is `ValueError: argument must be a positive integer`;
`valueErrorPool` is `ValueError: every prime factor must be greater than 1`;
`incompleteFactorization r` is `RuntimeError: cannot find all prime factors
for r` (the code interpolates `str(p - 1)`); `factorNotPrime f` is
`RuntimeError: factor f is not prime`; `randbelowValueError` is the
`ValueError` raised by `secrets.randbelow` on a non-positive bound. -/
inductive PErr where
  | valueErrorArgument
  | valueErrorPool
  | incompleteFactorization (reported : Nat)
  | factorNotPrime (f : Nat)
  | randbelowValueError
  | outOfFuel
  deriving DecidableEq, Repr

/-- A certificate: the Python dict mapping each prime to either the sorted
list of prime factors of its predecessor, or `None` (here `none`) in a
partial certificate.  Represented as an association list in insertion
order; the dict invariant (no duplicate keys) is proved, not assumed. -/
abbrev Cert := List (Nat × Option (List Nat))

/-- The outcome of one `_lucas(n, factors)` call. -/
abbrev Oracle := Nat → List Nat → Except PErr Bool

/-- Insert into an ascending list (one step of insertion sort). -/
def insertAsc (x : Nat) : List Nat → List Nat
  | [] => [x]
  | y :: ys => if x ≤ y then x :: y :: ys else y :: insertAsc x ys

/-- Python's `sorted` on a list of ints. -/
def sortNat (l : List Nat) : List Nat := l.foldr insertAsc []

/-- The keys of a certificate, in insertion order. -/
def keysOf (c : Cert) : List Nat := c.map Prod.fst

/-- `certificate[k] = v` / `certificate.update({k: v})`: overwrite the value
of an existing key in place, else append the new entry. -/
def updateEntry (c : Cert) (k : Nat) (v : Option (List Nat)) : Cert :=
  if k ∈ keysOf c then c.map (fun kv => if kv.1 = k then (k, v) else kv)
  else c ++ [(k, v)]

/-- `certificate.update(certificate_)`: fold `updateEntry` over the items of
the second dict in their order. -/
def mergeCert (c sub : Cert) : Cert :=
  sub.foldl (fun acc kv => updateEntry acc kv.1 kv.2) c

/-- Insert into a certificate sorted by ascending key. -/
def insertKeyAsc (x : Nat × Option (List Nat)) : Cert → Cert
  | [] => [x]
  | y :: ys => if x.1 ≤ y.1 then x :: y :: ys else y :: insertKeyAsc x ys

/-- `dict(sorted(certificate.items()))`: the keys of a dict are distinct, so
sorting the items coincides with sorting by key. -/
def sortCert (c : Cert) : Cert := c.foldr insertKeyAsc []

/-- Python's three-argument `pow(a, e, n)` for non-negative operands. -/
def powMod (a e n : Nat) : Nat := a ^ e % n

/-- The base drawn at trial `i` of a `_lucas` call on `n` (for `n ≥ 3`):
`a = 2 + randbelow(n - 2)`, with the raw draw taken from the stream `σ`. -/
def lucasBase (σ : Nat → Nat) (n i : Nat) : Nat := 2 + σ i % (n - 2)

/-- The success condition of one trial of `_lucas`:
`pow(a, n-1, n) == 1 and all(pow(a, (n-1)//p, n) != 1 for p in factors)`. -/
def lucasCond (n a : Nat) (factors : List Nat) : Bool :=
  powMod a (n - 1) n == 1 && factors.all (fun p => !(powMod a ((n - 1) / p) n == 1))

/-- The trial loop of `_lucas`: up to `t` further trials, next draw index `i`. -/
def lucasLoop (σ : Nat → Nat) (n : Nat) (factors : List Nat) : Nat → Nat → Except PErr Bool
  | 0, _ => .ok false
  | t + 1, i =>
    if lucasCond n (lucasBase σ n i) factors then .ok true
    else lucasLoop σ n factors t (i + 1)

/-- `_lucas(n, factors)` with draw stream `σ`.  `n = 2` returns `True`
immediately; otherwise the first trial calls `randbelow(n - 2)`, which
raises `ValueError` when the bound `n - 2 ≤ 0` (as a Python int), i.e. when
`n ≤ 2`; otherwise up to 100 trials are performed. -/
def lucasFn (σ : Nat → Nat) (n : Nat) (factors : List Nat) : Except PErr Bool :=
  if n = 2 then .ok true
  else if n ≤ 2 then .error .randbelowValueError
  else lucasLoop σ n factors 100 0

/-- The oracle describing a program run in which every `_lucas` call draws
from the stream `σ`. -/
def oracleOf (σ : Nat → Nat) : Oracle := fun n fs => lucasFn σ n fs

/-- An oracle is realizable when each of its answers is producible by some
stream of raw draws — i.e. it describes a possible behaviour of the
entropy-consuming `_lucas`. -/
def Realizable (L : Oracle) : Prop := ∀ n fs, ∃ σ : Nat → Nat, L n fs = lucasFn σ n fs

/-- `while n % q == 0: n //= q`, with fuel (the loop strictly decreases `n`,
so `n` itself bounds the iteration count; the guards `1 < q` and `0 < n`
hold at every reachable call site — the pool is validated to contain only
ints `> 1`, and `n = 0` never reaches the loop since a candidate `p = 1`
has no pool element below it). -/
def divideOutF : Nat → Nat → Nat → Nat
  | 0, _, n => n
  | fuel + 1, q, n => if 1 < q ∧ 0 < n ∧ n % q = 0 then divideOutF fuel q (n / q) else n

/-- Divide all factors of `q` out of `n`. -/
def divideOut (q n : Nat) : Nat := divideOutF n q n

/-- The trial-division loop of `pratts`: for each divisor `q` in the list,
if `q` divides the current value, divide it out completely and record `q`
as a discovered factor.  Returns the remaining cofactor and the discovered
factors in discovery order. -/
def trialDivide (n : Nat) : List Nat → Nat × List Nat
  | [] => (n, [])
  | q :: rest =>
    if 1 < q ∧ 0 < n ∧ n % q = 0 then
      let pr := trialDivide (divideOut q n) rest
      (pr.1, q :: pr.2)
    else trialDivide n rest

/-- `primes + [argument]` after `primes = list(sorted(primes))`: the
candidate list processed by the main loop — the ascending-sorted pool with
the argument appended at the end. -/
def candidatesOf (primes : List Nat) (argument : Nat) : List Nat :=
  sortNat primes ++ [argument]

/-- The `for f in factors:` loop: recursively build a certificate for each
discovered factor `f` with pool `[p for p in primes if p < f]` (and
`partial` left at its default `False`), treat a `None` sub-result as the
fatal `factor f is not prime` error, and merge each sub-certificate.
`eval f pool` stands for the recursive `pratts(f, pool)` call. -/
def recurseFactors (eval : Nat → List Nat → Except PErr (Option Cert))
    (primes : List Nat) : Cert → List Nat → Except PErr Cert
  | cert, [] => .ok cert
  | cert, f :: fs =>
    match eval f (primes.filter (fun q => q < f)) with
    | .error e => .error e
    | .ok none => .error (.factorNotPrime f)
    | .ok (some sub) => recurseFactors eval primes (mergeCert cert sub) fs

/-- The main candidate loop of `pratts` (`for p in primes + [argument]`),
acting on the accumulated certificate.  `primes` is the sorted validated
pool; `pt` is the `partial` flag; `eval` performs recursive builds.
`.ok none` models the early `return None` on a failed witness search. -/
def processCands (eval : Nat → List Nat → Except PErr (Option Cert)) (L : Oracle)
    (primes : List Nat) (pt : Bool) : Cert → List Nat → Except PErr (Option Cert)
  | cert, [] => .ok (some cert)
  | cert, p :: rest =>
    if p = 2 then processCands eval L primes pt (updateEntry cert 2 (some [])) rest
    else
      let td := trialDivide (p - 1) (primes.filter (fun q => q < p))
      if 1 < td.1 then
        if pt then processCands eval L primes pt (updateEntry cert p none) rest
        else .error (.incompleteFactorization (p - 1))
      else
        let cert1 := updateEntry cert p (some (sortNat td.2))
        match L p td.2 with
        | .error e => .error e
        | .ok false => .ok none
        | .ok true =>
          match recurseFactors eval primes cert1 td.2 with
          | .error e => .error e
          | .ok cert2 => processCands eval L primes pt cert2 rest

/-- The body of `pratts` after validation, on `Nat` inputs: sort the pool,
return the fixed base-case certificate for argument 2, otherwise run the
candidate loop on the empty certificate and sort the result by key.
Recursive calls descend through `fuel`. -/
def prattsCore (L : Oracle) : Nat → Nat → List Nat → Bool → Except PErr (Option Cert)
  | 0, _, _, _ => .error .outOfFuel
  | fuel + 1, argument, primes0, pt =>
    let primes := sortNat primes0
    if argument = 2 then .ok (some [(2, some [])])
    else
      match processCands (fun f ps => prattsCore L fuel f ps false) L primes pt []
          (candidatesOf primes0 argument) with
      | .ok (some cert) => .ok (some (sortCert cert))
      | r => r

/-- `pratts(argument, primes, partial)` including the value validation on
the `Int` inputs (the `TypeError` branches are outside a typed embedding):
`argument < 1` raises `ValueError`, then any pool element `≤ 1` raises
`ValueError`, then the core algorithm runs on the (non-negative) values. -/
def pratts (L : Oracle) (fuel : Nat) (argument : Int) (primes : List Int) (pt : Bool) :
    Except PErr (Option Cert) :=
  if argument < 1 then .error .valueErrorArgument
  else if ¬ primes.all (fun p => 1 < p) then .error .valueErrorPool
  else prattsCore L fuel argument.toNat (primes.map Int.toNat) pt

/-- `pratts` with the caller's pool object threaded through as state.  The
source only reads the caller's collection: line 181 copies it
(`primes = list(primes)`) and every later operation rebinds the local name
to a fresh list (`list(sorted(primes))`, list comprehensions), so the
state returned to the caller is the untouched input list. -/
def prattsCall (L : Oracle) (fuel : Nat) (argument : Int) (callerPool : List Int) (pt : Bool) :
    Except PErr (Option Cert) × List Int :=
  if argument < 1 then (.error .valueErrorArgument, callerPool)
  else
    let localPrimes := callerPool.map id
    if ¬ localPrimes.all (fun p => 1 < p) then (.error .valueErrorPool, callerPool)
    else (prattsCore L fuel argument.toNat (localPrimes.map Int.toNat) pt, callerPool)

/-- The ascending duplicate-free list of prime factors of `m`. -/
def pfAsc (m : Nat) : List Nat := (Nat.primeFactorsList m).dedup

/-- Ascending duplicate-free version of a list. -/
def dedupSort (l : List Nat) : List Nat := (sortNat l).dedup

/-- The canonical certificate over a set of keys: each key `k` maps to the
ascending list of prime factors of `k - 1`, keys ascending and distinct. -/
def canonCert (s : List Nat) : Cert :=
  (dedupSort s).map (fun k => (k, some (pfAsc (k - 1))))

/-- Whether a list is ascending (the order claimed for candidate processing). -/
def isAscending : List Nat → Bool
  | [] => true
  | [_] => true
  | x :: y :: rest => decide (x ≤ y) && isAscending (y :: rest)

/-- Whether a run outcome is the `IncompleteFactorization` failure. -/
def isIncompleteB : Except PErr (Option Cert) → Bool
  | .error (.incompleteFactorization _) => true
  | _ => false

/-! ### Sorting helpers -/

/-- Every integer in a non-sentinel value list of the certificate is itself
a key of the certificate. -/
def Closed (c : Cert) : Prop :=
  ∀ k vs, (k, some vs) ∈ c → ∀ f ∈ vs, f ∈ keysOf c

/-- Closure up to a set of pending factors that are still awaiting their
recursive sub-certificates. -/
def ClosedExcept (c : Cert) (X : List Nat) : Prop :=
  ∀ k vs, (k, some vs) ∈ c → ∀ f ∈ vs, f ∈ keysOf c ∨ f ∈ X

/-- The pack of facts supplied by recursive builds: a successful
sub-certificate is closed and contains its own argument as a key. -/
def EvalPack (eval : Nat → List Nat → Except PErr (Option Cert)) : Prop :=
  ∀ f ps sub, eval f ps = .ok (some sub) → Closed sub ∧ f ∈ keysOf sub

/-- A key is good for a pool list: it is prime, and every prime factor of
its predecessor is available in the pool strictly below it.  This is the
condition under which the builder provably certifies the key. -/
def GoodKey (P : List Nat) (k : Nat) : Prop :=
  k.Prime ∧ ∀ r, r.Prime → r ∣ (k - 1) → (r ∈ P ∧ r < k)

/-- Facts available about recursive builds while analysing a successful
run: a successful sub-certificate on the filtered pool is canonical, has
distinct keys, all of them good, drawn from the filtered pool or equal to
the factor itself. -/
def APack (eval : Nat → List Nat → Except PErr (Option Cert)) (primes : List Nat) : Prop :=
  ∀ f sub, eval f (primes.filter (fun q => q < f)) = .ok (some sub) →
    (∀ e ∈ sub, e.2 = some (pfAsc (e.1 - 1))) ∧ (keysOf sub).Nodup ∧
    (∀ k ∈ keysOf sub, GoodKey primes k) ∧
    (∀ k ∈ keysOf sub, (k ∈ primes ∧ k < f) ∨ k = f)

theorem insertAsc_perm (x : Nat) (l : List Nat) : List.Perm (insertAsc x l) (x :: l) := by
  induction l with
  | nil => simp [insertAsc]
  | cons y ys ih =>
    by_cases h : x ≤ y
    · simp [insertAsc, h]
    · simp only [insertAsc, if_neg h]
      exact (ih.cons y).trans (List.Perm.swap x y ys)

theorem mem_insertAsc {a x : Nat} {l : List Nat} : a ∈ insertAsc x l ↔ a = x ∨ a ∈ l := by
  rw [(insertAsc_perm x l).mem_iff, List.mem_cons]

theorem insertAsc_sorted {x : Nat} {l : List Nat} (h : l.Sorted (· ≤ ·)) :
    (insertAsc x l).Sorted (· ≤ ·) := by
  induction l with
  | nil => simp [insertAsc]
  | cons y ys ih =>
    rw [List.sorted_cons] at h
    by_cases hxy : x ≤ y
    · rw [insertAsc, if_pos hxy, List.sorted_cons]
      refine ⟨fun b hb => ?_, List.sorted_cons.2 h⟩
      rcases List.mem_cons.1 hb with rfl | hb
      · exact hxy
      · exact le_trans hxy (h.1 b hb)
    · rw [insertAsc, if_neg hxy, List.sorted_cons]
      refine ⟨fun b hb => ?_, ih h.2⟩
      rcases mem_insertAsc.1 hb with rfl | hb
      · exact le_of_not_le hxy
      · exact h.1 b hb

theorem sortNat_perm (l : List Nat) : List.Perm (sortNat l) l := by
  induction l with
  | nil => rfl
  | cons x xs ih => exact (insertAsc_perm x (sortNat xs)).trans (ih.cons x)

theorem mem_sortNat {a : Nat} {l : List Nat} : a ∈ sortNat l ↔ a ∈ l :=
  (sortNat_perm l).mem_iff

theorem sortNat_sorted (l : List Nat) : (sortNat l).Sorted (· ≤ ·) := by
  induction l with
  | nil => exact List.sorted_nil
  | cons x xs ih => exact insertAsc_sorted ih

theorem sortNat_nodup {l : List Nat} (h : l.Nodup) : (sortNat l).Nodup :=
  (sortNat_perm l).nodup_iff.2 h

/-- Two ascending duplicate-free lists with the same members are equal. -/
theorem sorted_nodup_ext {l₁ l₂ : List Nat} (s₁ : l₁.Sorted (· ≤ ·))
    (s₂ : l₂.Sorted (· ≤ ·)) (d₁ : l₁.Nodup) (d₂ : l₂.Nodup)
    (h : ∀ a, a ∈ l₁ ↔ a ∈ l₂) : l₁ = l₂ :=
  List.eq_of_perm_of_sorted ((List.perm_ext_iff_of_nodup d₁ d₂).2 h) s₁ s₂

theorem insertKeyAsc_perm (x : Nat × Option (List Nat)) (c : Cert) :
    List.Perm (insertKeyAsc x c) (x :: c) := by
  induction c with
  | nil => simp [insertKeyAsc]
  | cons y ys ih =>
    by_cases h : x.1 ≤ y.1
    · simp [insertKeyAsc, h]
    · simp only [insertKeyAsc, if_neg h]
      exact (ih.cons y).trans (List.Perm.swap x y ys)

theorem sortCert_perm (c : Cert) : List.Perm (sortCert c) c := by
  induction c with
  | nil => rfl
  | cons x xs ih => exact (insertKeyAsc_perm x (sortCert xs)).trans (ih.cons x)

theorem mem_sortCert {e : Nat × Option (List Nat)} {c : Cert} :
    e ∈ sortCert c ↔ e ∈ c :=
  (sortCert_perm c).mem_iff

theorem keysOf_sortCert_perm (c : Cert) : List.Perm (keysOf (sortCert c)) (keysOf c) :=
  (sortCert_perm c).map Prod.fst

theorem mem_keysOf_sortCert {k : Nat} {c : Cert} :
    k ∈ keysOf (sortCert c) ↔ k ∈ keysOf c :=
  (keysOf_sortCert_perm c).mem_iff

theorem insertKeyAsc_sorted {x : Nat × Option (List Nat)} {c : Cert}
    (h : c.Pairwise (fun u v => u.1 ≤ v.1)) :
    (insertKeyAsc x c).Pairwise (fun u v => u.1 ≤ v.1) := by
  induction c with
  | nil => simp [insertKeyAsc]
  | cons y ys ih =>
    rw [List.pairwise_cons] at h
    by_cases hxy : x.1 ≤ y.1
    · rw [insertKeyAsc, if_pos hxy, List.pairwise_cons]
      refine ⟨fun b hb => ?_, List.pairwise_cons.2 h⟩
      rcases List.mem_cons.1 hb with rfl | hb
      · exact hxy
      · exact le_trans hxy (h.1 b hb)
    · rw [insertKeyAsc, if_neg hxy, List.pairwise_cons]
      refine ⟨fun b hb => ?_, ih h.2⟩
      rcases List.mem_cons.1 ((insertKeyAsc_perm x ys).mem_iff.1 hb) with rfl | hb
      · exact le_of_not_le hxy
      · exact h.1 b hb

theorem sortCert_sortedKeys (c : Cert) :
    (sortCert c).Pairwise (fun u v => u.1 ≤ v.1) := by
  induction c with
  | nil => exact List.Pairwise.nil
  | cons x xs ih => exact insertKeyAsc_sorted ih

/-! ### Certificate update and merge -/

theorem keysOf_append (c d : Cert) : keysOf (c ++ d) = keysOf c ++ keysOf d := by
  simp [keysOf]

theorem mem_keysOf {k : Nat} {c : Cert} : k ∈ keysOf c ↔ ∃ v, (k, v) ∈ c := by
  constructor
  · intro h
    rcases List.mem_map.1 h with ⟨⟨k', v⟩, hm, hk⟩
    exact ⟨v, by simpa [← hk] using hm⟩
  · rintro ⟨v, hv⟩
    exact List.mem_map.2 ⟨(k, v), hv, rfl⟩

theorem mem_keysOf_updateEntry {k k' : Nat} {v : Option (List Nat)} {c : Cert} :
    k' ∈ keysOf (updateEntry c k v) ↔ k' ∈ keysOf c ∨ k' = k := by
  unfold updateEntry
  by_cases h : k ∈ keysOf c
  · rw [if_pos h]
    constructor
    · intro hm
      rcases List.mem_map.1 hm with ⟨e, he, hk⟩
      rcases List.mem_map.1 he with ⟨e₀, he₀, hval⟩
      by_cases h₀ : e₀.1 = k
      · right; rw [← hk, ← hval, if_pos h₀]
      · left
        rw [← hk, ← hval, if_neg h₀]
        exact List.mem_map.2 ⟨e₀, he₀, rfl⟩
    · intro hm
      rcases hm with hm | hk'
      · rcases List.mem_map.1 hm with ⟨e₀, he₀, hk⟩
        apply List.mem_map.2
        refine ⟨if e₀.1 = k then (k, v) else e₀, List.mem_map.2 ⟨e₀, he₀, rfl⟩, ?_⟩
        by_cases h₀ : e₀.1 = k
        · rw [if_pos h₀, ← hk, h₀]
        · rw [if_neg h₀, hk]
      · rcases mem_keysOf.1 h with ⟨v₀, hv₀⟩
        apply List.mem_map.2
        exact ⟨(k, v), List.mem_map.2 ⟨(k, v₀), hv₀, by simp⟩, hk'.symm⟩
  · rw [if_neg h, keysOf_append]
    simp only [List.mem_append, keysOf, List.map_cons, List.map_nil, List.mem_singleton]

theorem mem_updateEntry {e : Nat × Option (List Nat)} {k : Nat}
    {v : Option (List Nat)} {c : Cert} (h : e ∈ updateEntry c k v) :
    e ∈ c ∨ e = (k, v) := by
  unfold updateEntry at h
  by_cases hk : k ∈ keysOf c
  · rw [if_pos hk] at h
    rcases List.mem_map.1 h with ⟨e₀, he₀, hval⟩
    by_cases h₀ : e₀.1 = k
    · right; rw [← hval, if_pos h₀]
    · left; rwa [← hval, if_neg h₀]
  · rw [if_neg hk] at h
    rcases List.mem_append.1 h with h | h
    · exact Or.inl h
    · exact Or.inr (List.mem_singleton.1 h)

theorem mem_mergeCert {e : Nat × Option (List Nat)} {c s : Cert}
    (h : e ∈ mergeCert c s) : e ∈ c ∨ e ∈ s := by
  induction s generalizing c with
  | nil => exact Or.inl h
  | cons kv s' ih =>
    have h0 : e ∈ mergeCert (updateEntry c kv.1 kv.2) s' := h
    rcases ih h0 with h' | h'
    · rcases mem_updateEntry h' with h'' | h''
      · exact Or.inl h''
      · exact Or.inr (by simp [h''])
    · exact Or.inr (List.mem_cons_of_mem _ h')

theorem mem_keysOf_mergeCert {k : Nat} {c s : Cert} :
    k ∈ keysOf (mergeCert c s) ↔ k ∈ keysOf c ∨ k ∈ keysOf s := by
  induction s generalizing c with
  | nil => simp [mergeCert, keysOf]
  | cons kv s' ih =>
    show k ∈ keysOf (mergeCert (updateEntry c kv.1 kv.2) s') ↔ _
    rw [ih, mem_keysOf_updateEntry]
    simp [keysOf, or_assoc, or_comm, or_left_comm]

theorem keysOf_updateEntry_of_mem {k : Nat} {v : Option (List Nat)} {c : Cert}
    (h : k ∈ keysOf c) : keysOf (updateEntry c k v) = keysOf c := by
  unfold updateEntry
  rw [if_pos h]
  unfold keysOf
  rw [List.map_map]
  apply List.map_congr_left
  intro e _
  by_cases h₀ : e.1 = k
  · simp [h₀]
  · simp [h₀]

theorem nodup_keysOf_updateEntry {k : Nat} {v : Option (List Nat)} {c : Cert}
    (h : (keysOf c).Nodup) : (keysOf (updateEntry c k v)).Nodup := by
  by_cases hk : k ∈ keysOf c
  · rw [keysOf_updateEntry_of_mem hk]; exact h
  · unfold updateEntry
    rw [if_neg hk, keysOf_append]
    simp only [keysOf, List.map_cons, List.map_nil]
    refine List.Nodup.append h (List.nodup_singleton k) ?_
    intro a ha hb
    rw [List.mem_singleton] at hb
    subst hb
    exact hk ha

theorem nodup_keysOf_mergeCert {c s : Cert} (h : (keysOf c).Nodup) :
    (keysOf (mergeCert c s)).Nodup := by
  induction s generalizing c with
  | nil => exact h
  | cons kv s' ih => exact ih (nodup_keysOf_updateEntry h)

theorem nodup_keysOf_sortCert {c : Cert} (h : (keysOf c).Nodup) :
    (keysOf (sortCert c)).Nodup :=
  (keysOf_sortCert_perm c).nodup_iff.2 h

theorem keysOf_sortCert_sorted (c : Cert) : (keysOf (sortCert c)).Sorted (· ≤ ·) := by
  unfold keysOf
  exact List.Pairwise.map Prod.fst (fun {u v} h => h) (sortCert_sortedKeys c)

/-- A certificate whose values are determined by its keys is the map of its
key list. -/
theorem cert_eq_map_keys {c : Cert} (f : Nat → Option (List Nat))
    (h : ∀ e ∈ c, e.2 = f e.1) : c = (keysOf c).map (fun k => (k, f k)) := by
  induction c with
  | nil => rfl
  | cons e c' ih =>
    have he : e.2 = f e.1 := h e (List.mem_cons_self e c')
    have : e = (e.1, f e.1) := by
      rw [← he]
    calc e :: c' = (e.1, f e.1) :: c' := by rw [← this]
      _ = (e.1, f e.1) :: (keysOf c').map (fun k => (k, f k)) := by
          rw [← ih fun x hx => h x (List.mem_cons_of_mem e hx)]
      _ = (keysOf (e :: c')).map (fun k => (k, f k)) := by simp [keysOf]

/-- Two certificates with the same keys whose values are both determined by
the same function of the key are equal. -/
theorem cert_ext_valued {c d : Cert} (f : Nat → Option (List Nat))
    (hc : ∀ e ∈ c, e.2 = f e.1) (hd : ∀ e ∈ d, e.2 = f e.1)
    (hk : keysOf c = keysOf d) : c = d := by
  rw [cert_eq_map_keys f hc, cert_eq_map_keys f hd, hk]

/-! ### The division loop -/

theorem divideOutF_zero_n (fuel q : Nat) : divideOutF fuel q 0 = 0 := by
  cases fuel <;> simp [divideOutF]

theorem divideOutF_stable {f₁ f₂ q n : Nat} (h₁ : n ≤ f₁) (h₂ : n ≤ f₂) :
    divideOutF f₁ q n = divideOutF f₂ q n := by
  induction f₁ generalizing f₂ n with
  | zero =>
    have : n = 0 := Nat.le_zero.1 h₁
    subst this
    rw [divideOutF_zero_n, divideOutF_zero_n]
  | succ f₁ ih =>
    cases f₂ with
    | zero =>
      have : n = 0 := Nat.le_zero.1 h₂
      subst this
      rw [divideOutF_zero_n, divideOutF_zero_n]
    | succ f₂ =>
      by_cases hc : 1 < q ∧ 0 < n ∧ n % q = 0
      · simp only [divideOutF, if_pos hc]
        have hlt : n / q < n := Nat.div_lt_self hc.2.1 hc.1
        exact ih (by omega) (by omega)
      · simp only [divideOutF, if_neg hc]

theorem divideOut_step {q n : Nat} (hq : 1 < q) (hn : 0 < n) (hd : n % q = 0) :
    divideOut q n = divideOut q (n / q) := by
  unfold divideOut
  obtain ⟨m, rfl⟩ : ∃ m, n = m + 1 := ⟨n - 1, by omega⟩
  show divideOutF (m + 1) q (m + 1) = _
  simp only [divideOutF, if_pos (⟨hq, hn, hd⟩ : 1 < q ∧ 0 < m + 1 ∧ (m + 1) % q = 0)]
  have hlt : (m + 1) / q < m + 1 := Nat.div_lt_self hn hq
  exact divideOutF_stable (by omega) (le_refl _)

theorem divideOut_base {q n : Nat} (h : ¬(1 < q ∧ 0 < n ∧ n % q = 0)) :
    divideOut q n = n := by
  unfold divideOut
  cases n with
  | zero => exact divideOutF_zero_n _ _
  | succ m => simp only [divideOutF, if_neg h]

theorem divideOut_dvd (q n : Nat) : divideOut q n ∣ n := by
  induction n using Nat.strong_induction_on with
  | _ n ih =>
    by_cases hc : 1 < q ∧ 0 < n ∧ n % q = 0
    · rw [divideOut_step hc.1 hc.2.1 hc.2.2]
      have hdvd : q ∣ n := Nat.dvd_of_mod_eq_zero hc.2.2
      exact dvd_trans (ih (n / q) (Nat.div_lt_self hc.2.1 hc.1)) (Nat.div_dvd_of_dvd hdvd)
    · rw [divideOut_base hc]

theorem divideOut_pos {q n : Nat} (hn : 0 < n) : 0 < divideOut q n := by
  induction n using Nat.strong_induction_on with
  | _ n ih =>
    by_cases hc : 1 < q ∧ 0 < n ∧ n % q = 0
    · rw [divideOut_step hc.1 hc.2.1 hc.2.2]
      have hdvd : q ∣ n := Nat.dvd_of_mod_eq_zero hc.2.2
      exact ih (n / q) (Nat.div_lt_self hc.2.1 hc.1)
        (Nat.div_pos (Nat.le_of_dvd hn hdvd) (by omega))
    · rwa [divideOut_base hc]

theorem not_dvd_divideOut {q n : Nat} (hq : 1 < q) (hn : 0 < n) :
    ¬ q ∣ divideOut q n := by
  induction n using Nat.strong_induction_on with
  | _ n ih =>
    by_cases hc : 1 < q ∧ 0 < n ∧ n % q = 0
    · rw [divideOut_step hc.1 hc.2.1 hc.2.2]
      have hdvd : q ∣ n := Nat.dvd_of_mod_eq_zero hc.2.2
      exact ih (n / q) (Nat.div_lt_self hc.2.1 hc.1)
        (Nat.div_pos (Nat.le_of_dvd hn hdvd) (by omega))
    · rw [divideOut_base hc]
      intro hdvd
      exact hc ⟨hq, hn, Nat.mod_eq_zero_of_dvd hdvd⟩

theorem prime_dvd_divideOut_iff {q n r : Nat} (hq : q.Prime) (hn : 0 < n)
    (hr : r.Prime) : r ∣ divideOut q n ↔ r ∣ n ∧ r ≠ q := by
  induction n using Nat.strong_induction_on with
  | _ n ih =>
    by_cases hc : 1 < q ∧ 0 < n ∧ n % q = 0
    · rw [divideOut_step hc.1 hc.2.1 hc.2.2]
      have hdvd : q ∣ n := Nat.dvd_of_mod_eq_zero hc.2.2
      have hnq : 0 < n / q := Nat.div_pos (Nat.le_of_dvd hn hdvd) (by omega)
      rw [ih (n / q) (Nat.div_lt_self hc.2.1 hc.1) hnq]
      constructor
      · rintro ⟨h₁, h₂⟩
        exact ⟨dvd_trans h₁ (Nat.div_dvd_of_dvd hdvd), h₂⟩
      · rintro ⟨h₁, h₂⟩
        refine ⟨?_, h₂⟩
        have hmul : n / q * q = n := Nat.div_mul_cancel hdvd
        have : r ∣ n / q * q := by rw [hmul]; exact h₁
        rcases (Nat.Prime.dvd_mul hr).1 this with h | h
        · exact h
        · exact absurd ((Nat.prime_dvd_prime_iff_eq hr hq).1 h) h₂
    · rw [divideOut_base hc]
      constructor
      · intro h₁
        refine ⟨h₁, fun hrq => ?_⟩
        subst hrq
        exact hc ⟨hr.one_lt, hn, Nat.mod_eq_zero_of_dvd h₁⟩
      · exact fun h => h.1

/-! ### Trial division characterization -/

/-- Full characterization of the trial-division loop over a list of prime
divisors: the remaining cofactor divides the input, is positive, its prime
divisors are exactly the prime divisors of the input not offered in the
list, and the discovered factors are exactly the offered divisors that
divide the input, without duplicates. -/
theorem trialDivide_char {D : List Nat} {n : Nat} (hD : ∀ q ∈ D, q.Prime) (hn : 0 < n) :
    (trialDivide n D).1 ∣ n ∧ 0 < (trialDivide n D).1 ∧
    (∀ r, r.Prime → (r ∣ (trialDivide n D).1 ↔ r ∣ n ∧ r ∉ D)) ∧
    (∀ x, x ∈ (trialDivide n D).2 ↔ x ∈ D ∧ x ∣ n) ∧
    (trialDivide n D).2.Nodup := by
  induction D generalizing n with
  | nil =>
    refine ⟨dvd_refl n, hn, fun r _ => ?_, fun x => ?_, List.nodup_nil⟩
    · simp [trialDivide]
    · simp [trialDivide]
  | cons q D' ih =>
    have hq : q.Prime := hD q (List.mem_cons_self q D')
    have hD' : ∀ x ∈ D', x.Prime := fun x hx => hD x (List.mem_cons_of_mem q hx)
    by_cases hc : 1 < q ∧ 0 < n ∧ n % q = 0
    · have hqdvd : q ∣ n := Nat.dvd_of_mod_eq_zero hc.2.2
      have hm : 0 < divideOut q n := divideOut_pos hn
      have hmdvd : divideOut q n ∣ n := divideOut_dvd q n
      obtain ⟨h1, h2, h3, h4, h5⟩ := ih hD' hm
      have heq : trialDivide n (q :: D') =
          ((trialDivide (divideOut q n) D').1, q :: (trialDivide (divideOut q n) D').2) := by
        simp only [trialDivide, if_pos hc]
      rw [heq]
      refine ⟨dvd_trans h1 hmdvd, h2, fun r hr => ?_, fun x => ?_, ?_⟩
      · rw [h3 r hr, prime_dvd_divideOut_iff hq hn hr]
        constructor
        · rintro ⟨⟨hrn, hrq⟩, hrD'⟩
          exact ⟨hrn, by simp [List.mem_cons, hrq, hrD']⟩
        · rintro ⟨hrn, hrD⟩
          simp only [List.mem_cons, not_or] at hrD
          exact ⟨⟨hrn, hrD.1⟩, hrD.2⟩
      · simp only [List.mem_cons]
        constructor
        · rintro (rfl | hx)
          · exact ⟨Or.inl rfl, hqdvd⟩
          · obtain ⟨hxD', hxm⟩ := (h4 x).1 hx
            have hxp : x.Prime := hD' x hxD'
            obtain ⟨hxn, _⟩ := (prime_dvd_divideOut_iff hq hn hxp).1 hxm
            exact ⟨Or.inr hxD', hxn⟩
        · rintro ⟨rfl | hxD', hxn⟩
          · exact Or.inl rfl
          · by_cases hxq : x = q
            · exact Or.inl hxq
            · refine Or.inr ((h4 x).2 ⟨hxD', ?_⟩)
              have hxp : x.Prime := hD' x hxD'
              exact (prime_dvd_divideOut_iff hq hn hxp).2 ⟨hxn, hxq⟩
      · refine List.Nodup.cons (fun hqmem => ?_) h5
        obtain ⟨_, hqm⟩ := (h4 q).1 hqmem
        exact not_dvd_divideOut (by omega) hn hqm
    · have heq : trialDivide n (q :: D') = trialDivide n D' := by
        simp only [trialDivide, if_neg hc]
      rw [heq]
      obtain ⟨h1, h2, h3, h4, h5⟩ := ih hD' hn
      have hqnot : ¬ q ∣ n := by
        intro hdvd
        exact hc ⟨hq.one_lt, hn, Nat.mod_eq_zero_of_dvd hdvd⟩
      refine ⟨h1, h2, fun r hr => ?_, fun x => ?_, h5⟩
      · rw [h3 r hr]
        constructor
        · rintro ⟨hrn, hrD'⟩
          refine ⟨hrn, ?_⟩
          simp only [List.mem_cons, not_or]
          refine ⟨fun hrq => ?_, hrD'⟩
          subst hrq
          exact hqnot hrn
        · rintro ⟨hrn, hrD⟩
          simp only [List.mem_cons, not_or] at hrD
          exact ⟨hrn, hrD.2⟩
      · rw [h4 x]
        constructor
        · rintro ⟨hxD', hxn⟩
          exact ⟨List.mem_cons_of_mem q hxD', hxn⟩
        · rintro ⟨hxD, hxn⟩
          rcases List.mem_cons.1 hxD with rfl | hxD'
          · exact absurd hxn hqnot
          · exact ⟨hxD', hxn⟩

/-- With a list of prime divisors, the trial division reaches cofactor 1
exactly when every prime divisor of the input is offered. -/
theorem trialDivide_rem_one_iff {D : List Nat} {n : Nat}
    (hD : ∀ q ∈ D, q.Prime) (hn : 0 < n) :
    (trialDivide n D).1 = 1 ↔ ∀ r, r.Prime → r ∣ n → r ∈ D := by
  obtain ⟨h1, h2, h3, _, _⟩ := trialDivide_char hD hn
  constructor
  · intro hone r hr hrn
    by_contra hrD
    have := (h3 r hr).2 ⟨hrn, hrD⟩
    rw [hone] at this
    exact hr.one_lt.ne' (Nat.dvd_one.1 this)
  · intro hall
    by_contra hne
    have hgt : (trialDivide n D).1 ≠ 1 := hne
    obtain ⟨r, hr, hrdvd⟩ := Nat.exists_prime_and_dvd hgt
    obtain ⟨hrn, hrD⟩ := (h3 r hr).1 hrdvd
    exact hrD (hall r hr hrn)

/-- When the trial division over prime divisors completes, the sorted list
of discovered factors is the canonical ascending list of prime factors. -/
theorem trialDivide_factors_canon {D : List Nat} {n : Nat}
    (hD : ∀ q ∈ D, q.Prime) (hn : 0 < n)
    (hcomp : ∀ r, r.Prime → r ∣ n → r ∈ D) :
    sortNat (trialDivide n D).2 = pfAsc n := by
  obtain ⟨_, _, _, h4, h5⟩ := trialDivide_char hD hn
  refine sorted_nodup_ext (sortNat_sorted _) ?_ (sortNat_nodup h5) (List.nodup_dedup _) ?_
  · exact List.Pairwise.sublist (List.dedup_sublist _) (Nat.primeFactorsList_sorted n)
  · intro a
    rw [mem_sortNat, h4 a, pfAsc, List.mem_dedup,
      Nat.mem_primeFactorsList (Nat.pos_iff_ne_zero.1 hn)]
    constructor
    · rintro ⟨haD, han⟩
      exact ⟨hD a haD, han⟩
    · rintro ⟨hap, han⟩
      exact ⟨hcomp a hap han, han⟩

/-! ### The witness search -/

theorem lucasBase_range (σ : Nat → Nat) {n : Nat} (hn : 2 < n) (i : Nat) :
    2 ≤ lucasBase σ n i ∧ lucasBase σ n i < n := by
  unfold lucasBase
  have hmod : σ i % (n - 2) < n - 2 := Nat.mod_lt (σ i) (by omega)
  omega

theorem lucasLoop_ok_true {σ : Nat → Nat} {n : Nat} {fs : List Nat} {t i : Nat}
    (h : lucasLoop σ n fs t i = .ok true) :
    ∃ j, lucasCond n (lucasBase σ n j) fs = true := by
  induction t generalizing i with
  | zero => simp [lucasLoop] at h
  | succ t ih =>
    by_cases hc : lucasCond n (lucasBase σ n i) fs = true
    · exact ⟨i, hc⟩
    · rw [lucasLoop, if_neg hc] at h
      exact ih h

theorem lucasFn_ok_true {σ : Nat → Nat} {n : Nat} {fs : List Nat}
    (h : lucasFn σ n fs = .ok true) :
    n = 2 ∨ (2 < n ∧ ∃ a, 2 ≤ a ∧ a < n ∧ lucasCond n a fs = true) := by
  unfold lucasFn at h
  by_cases h2 : n = 2
  · exact Or.inl h2
  · rw [if_neg h2] at h
    by_cases hle : n ≤ 2
    · rw [if_pos hle] at h
      exact absurd h (by simp)
    · rw [if_neg hle] at h
      obtain ⟨j, hj⟩ := lucasLoop_ok_true h
      have hn3 : 2 < n := by omega
      obtain ⟨hb1, hb2⟩ := lucasBase_range σ hn3 j
      exact Or.inr ⟨hn3, lucasBase σ n j, hb1, hb2, hj⟩

/-- A `_lucas` call on `n = 1` always raises the `randbelow` `ValueError`. -/
theorem lucasFn_one (σ : Nat → Nat) (fs : List Nat) :
    lucasFn σ 1 fs = .error .randbelowValueError := rfl

theorem powMod_eq_one_iff {a e n : Nat} (hn : 1 < n) :
    powMod a e n = 1 ↔ (a : ZMod n) ^ e = 1 := by
  haveI : NeZero n := ⟨by omega⟩
  haveI : Fact (1 < n) := ⟨hn⟩
  unfold powMod
  constructor
  · intro h
    calc (a : ZMod n) ^ e = ((a ^ e : ℕ) : ZMod n) := by push_cast; rfl
      _ = ((a ^ e % n : ℕ) : ZMod n) := (ZMod.natCast_mod _ _).symm
      _ = ((1 : ℕ) : ZMod n) := by rw [h]
      _ = 1 := Nat.cast_one
  · intro h
    have hcast : ((a ^ e % n : ℕ) : ZMod n) = 1 := by
      rw [ZMod.natCast_mod]
      calc ((a ^ e : ℕ) : ZMod n) = (a : ZMod n) ^ e := by push_cast; rfl
        _ = 1 := h
    have hlt : a ^ e % n < n := Nat.mod_lt (a ^ e) (by omega)
    have hval : (((a ^ e % n : ℕ) : ZMod n)).val = a ^ e % n :=
      ZMod.val_natCast_of_lt hlt
    rw [hcast, ZMod.val_one n] at hval
    exact hval.symm

/-- A successful trial of the witness search on a complete prime factor
list proves primality — Lucas's theorem applied to the program's
arithmetic. -/
theorem lucasCond_true_prime {n a : Nat} {fs : List Nat} (hn : 2 < n)
    (hcomp : ∀ r, r.Prime → r ∣ n - 1 → r ∈ fs)
    (hc : lucasCond n a fs = true) : n.Prime := by
  have hn1 : 1 < n := by omega
  unfold lucasCond at hc
  rw [Bool.and_eq_true, beq_iff_eq, List.all_eq_true] at hc
  obtain ⟨h1, h2⟩ := hc
  refine lucas_primality n (a : ZMod n) ((powMod_eq_one_iff hn1).1 h1) ?_
  intro q hq hqdvd
  have hqfs : q ∈ fs := hcomp q hq hqdvd
  have := h2 q hqfs
  rw [Bool.not_eq_eq_eq_not, Bool.not_true, beq_eq_false_iff_ne] at this
  intro hone
  exact this ((powMod_eq_one_iff hn1).2 hone)

/-- A realizable oracle can only answer `true` on a complete prime factor
list when the candidate is genuinely prime. -/
theorem realizable_true_prime {L : Oracle} (hL : Realizable L) {n : Nat} {fs : List Nat}
    (h : L n fs = .ok true) (hcomp : ∀ r, r.Prime → r ∣ n - 1 → r ∈ fs) : n.Prime := by
  obtain ⟨σ, hσ⟩ := hL n fs
  rw [hσ] at h
  rcases lucasFn_ok_true h with rfl | ⟨hn, a, _, _, hc⟩
  · exact Nat.prime_two
  · exact lucasCond_true_prime hn hcomp hc

/-- A realizable oracle raises the `randbelow` `ValueError` on `n = 1`. -/
theorem realizable_one {L : Oracle} (hL : Realizable L) (fs : List Nat) :
    L 1 fs = .error .randbelowValueError := by
  obtain ⟨σ, hσ⟩ := hL 1 fs
  rw [hσ, lucasFn_one]

/-! ### Closure of certificates (the invariant of §3 of the spec) -/

theorem Closed.closedExcept {c : Cert} (h : Closed c) (X : List Nat) :
    ClosedExcept c X := fun k vs hm f hf => Or.inl (h k vs hm f hf)

theorem closedExcept_nil_closed {c : Cert} (h : ClosedExcept c []) : Closed c :=
  fun k vs hm f hf => (h k vs hm f hf).resolve_right (by simp)

theorem closedExcept_updateEntry_none {c : Cert} {X : List Nat} {p : Nat}
    (h : ClosedExcept c X) : ClosedExcept (updateEntry c p none) X := by
  intro k vs hm f hf
  rcases mem_updateEntry hm with hm' | hm'
  · rcases h k vs hm' f hf with h' | h'
    · exact Or.inl (mem_keysOf_updateEntry.2 (Or.inl h'))
    · exact Or.inr h'
  · exact absurd hm' (by simp)

theorem closedExcept_updateEntry_some {c : Cert} {X : List Nat} {p : Nat}
    {vs : List Nat} (h : ClosedExcept c X) (hvs : ∀ f ∈ vs, f ∈ X) :
    ClosedExcept (updateEntry c p (some vs)) X := by
  intro k ws hm f hf
  rcases mem_updateEntry hm with hm' | hm'
  · rcases h k ws hm' f hf with h' | h'
    · exact Or.inl (mem_keysOf_updateEntry.2 (Or.inl h'))
    · exact Or.inr h'
  · have : ws = vs := by
      have := congrArg Prod.snd hm'
      simpa using this
    subst this
    exact Or.inr (hvs f hf)

theorem closedExcept_mergeCert {c sub : Cert} {X : List Nat}
    (hc : ClosedExcept c X) (hsub : Closed sub) :
    ClosedExcept (mergeCert c sub) X := by
  intro k vs hm f hf
  rcases mem_mergeCert hm with hm' | hm'
  · rcases hc k vs hm' f hf with h' | h'
    · exact Or.inl (mem_keysOf_mergeCert.2 (Or.inl h'))
    · exact Or.inr h'
  · exact Or.inl (mem_keysOf_mergeCert.2 (Or.inr (hsub k vs hm' f hf)))

theorem closedExcept_weaken {c : Cert} {X Y : List Nat}
    (h : ClosedExcept c X) (hXY : ∀ x ∈ X, x ∈ keysOf c ∨ x ∈ Y) :
    ClosedExcept c Y := by
  intro k vs hm f hf
  rcases h k vs hm f hf with h' | h'
  · exact Or.inl h'
  · exact hXY f h'

theorem recurseFactors_closed {eval : Nat → List Nat → Except PErr (Option Cert)}
    {primes : List Nat} (hpack : EvalPack eval) :
    ∀ {fs : List Nat} {cert cert' : Cert},
      recurseFactors eval primes cert fs = .ok cert' →
      ClosedExcept cert fs →
      Closed cert' ∧ ∀ k ∈ keysOf cert, k ∈ keysOf cert' := by
  intro fs
  induction fs with
  | nil =>
    intro cert cert' hrun hce
    simp only [recurseFactors] at hrun
    cases hrun
    exact ⟨closedExcept_nil_closed hce, fun k hk => hk⟩
  | cons f fs' ih =>
    intro cert cert' hrun hce
    simp only [recurseFactors] at hrun
    cases heval : eval f (primes.filter (fun q => q < f)) with
    | error e => rw [heval] at hrun; exact absurd hrun (by simp)
    | ok osub =>
      cases osub with
      | none => rw [heval] at hrun; exact absurd hrun (by simp)
      | some sub =>
        rw [heval] at hrun
        obtain ⟨hsub, hfk⟩ := hpack f _ sub heval
        have hce' : ClosedExcept (mergeCert cert sub) fs' := by
          refine closedExcept_weaken (closedExcept_mergeCert hce hsub) ?_
          intro x hx
          rcases List.mem_cons.1 hx with rfl | hx'
          · exact Or.inl (mem_keysOf_mergeCert.2 (Or.inr hfk))
          · exact Or.inr hx'
        obtain ⟨h1, h2⟩ := ih hrun hce'
        exact ⟨h1, fun k hk => h2 k (mem_keysOf_mergeCert.2 (Or.inl hk))⟩

theorem processCands_closed {eval : Nat → List Nat → Except PErr (Option Cert)}
    {L : Oracle} {primes : List Nat} {pt : Bool} (hpack : EvalPack eval) :
    ∀ {cands : List Nat} {cert : Cert} {C : Cert},
      processCands eval L primes pt cert cands = .ok (some C) →
      Closed cert →
      Closed C ∧ (∀ k ∈ keysOf cert, k ∈ keysOf C) ∧ (∀ p ∈ cands, p ∈ keysOf C) := by
  intro cands
  induction cands with
  | nil =>
    intro cert C hrun hcl
    simp only [processCands] at hrun
    cases hrun
    exact ⟨hcl, fun k hk => hk, by simp⟩
  | cons p rest ih =>
    intro cert C hrun hcl
    simp only [processCands] at hrun
    by_cases hp2 : p = 2
    · rw [if_pos hp2] at hrun
      have hcl' : Closed (updateEntry cert 2 (some [])) := by
        intro k vs hm f hf
        rcases mem_updateEntry hm with hm' | hm'
        · exact mem_keysOf_updateEntry.2 (Or.inl (hcl k vs hm' f hf))
        · have : vs = [] := by
            have := congrArg Prod.snd hm'
            simpa using this
          subst this
          exact absurd hf (List.not_mem_nil f)
      obtain ⟨h1, h2, h3⟩ := ih hrun hcl'
      refine ⟨h1, fun k hk => h2 k (mem_keysOf_updateEntry.2 (Or.inl hk)), ?_⟩
      intro x hx
      rcases List.mem_cons.1 hx with rfl | hx'
      · exact hp2 ▸ h2 2 (mem_keysOf_updateEntry.2 (Or.inr rfl))
      · exact h3 x hx'
    · rw [if_neg hp2] at hrun
      by_cases hrem : 1 < (trialDivide (p - 1) (primes.filter (fun q => q < p))).1
      · rw [if_pos hrem] at hrun
        by_cases hpt : pt = true
        case neg => rw [if_neg hpt] at hrun; exact absurd hrun (by simp)
        case pos =>
          rw [if_pos hpt] at hrun
          have hcl' : Closed (updateEntry cert p none) := by
            intro k vs hm f hf
            rcases mem_updateEntry hm with hm' | hm'
            · exact mem_keysOf_updateEntry.2 (Or.inl (hcl k vs hm' f hf))
            · exact absurd (congrArg Prod.snd hm') (by simp)
          obtain ⟨h1, h2, h3⟩ := ih hrun hcl'
          refine ⟨h1, fun k hk => h2 k (mem_keysOf_updateEntry.2 (Or.inl hk)), ?_⟩
          intro x hx
          rcases List.mem_cons.1 hx with rfl | hx'
          · exact h2 x (mem_keysOf_updateEntry.2 (Or.inr rfl))
          · exact h3 x hx'
      · rw [if_neg hrem] at hrun
        cases hL : L p (trialDivide (p - 1) (primes.filter (fun q => q < p))).2 with
        | error e => rw [hL] at hrun; exact absurd hrun (by simp)
        | ok b =>
          cases b with
          | false => rw [hL] at hrun; exact absurd hrun (by simp)
          | true =>
            rw [hL] at hrun
            cases hrf : recurseFactors eval primes
                (updateEntry cert p (some (sortNat (trialDivide (p - 1)
                  (primes.filter (fun q => q < p))).2)))
                (trialDivide (p - 1) (primes.filter (fun q => q < p))).2 with
            | error e => rw [hrf] at hrun; exact absurd hrun (by simp)
            | ok cert2 =>
              rw [hrf] at hrun
              have hce1 : ClosedExcept
                  (updateEntry cert p (some (sortNat (trialDivide (p - 1)
                    (primes.filter (fun q => q < p))).2)))
                  (trialDivide (p - 1) (primes.filter (fun q => q < p))).2 := by
                refine closedExcept_updateEntry_some (hcl.closedExcept _) ?_
                intro f hf
                exact mem_sortNat.1 hf
              obtain ⟨hcl2, hsub2⟩ := recurseFactors_closed hpack hrf hce1
              obtain ⟨h1, h2, h3⟩ := ih hrun hcl2
              refine ⟨h1, ?_, ?_⟩
              · intro k hk
                exact h2 k (hsub2 k (mem_keysOf_updateEntry.2 (Or.inl hk)))
              · intro x hx
                rcases List.mem_cons.1 hx with rfl | hx'
                · exact h2 x (hsub2 x (mem_keysOf_updateEntry.2 (Or.inr rfl)))
                · exact h3 x hx'

/-- Every certificate returned by the core builder is closed and contains
its argument among its keys. -/
theorem prattsCore_closed {L : Oracle} :
    ∀ {fuel : Nat} {a : Nat} {P : List Nat} {pt : Bool} {C : Cert},
      prattsCore L fuel a P pt = .ok (some C) → Closed C ∧ a ∈ keysOf C := by
  intro fuel
  induction fuel with
  | zero => intro a P pt C hrun; exact absurd hrun (by simp [prattsCore])
  | succ fuel ih =>
    intro a P pt C hrun
    simp only [prattsCore] at hrun
    by_cases ha2 : a = 2
    · rw [if_pos ha2] at hrun
      cases hrun
      subst ha2
      refine ⟨?_, by simp [keysOf]⟩
      intro k vs hm f hf
      rcases List.mem_singleton.1 hm with h
      have : vs = [] := by
        have := congrArg Prod.snd h
        simpa using this
      subst this
      exact absurd hf (List.not_mem_nil f)
    · rw [if_neg ha2] at hrun
      have hpack : EvalPack (fun f ps => prattsCore L fuel f ps false) :=
        fun f ps sub h => ih h
      cases hpc : processCands (fun f ps => prattsCore L fuel f ps false) L
          (sortNat P) pt [] (candidatesOf P a) with
      | error e => rw [hpc] at hrun; exact absurd hrun (by simp)
      | ok oc =>
        cases oc with
        | none => rw [hpc] at hrun; exact absurd hrun (by simp)
        | some cert =>
          rw [hpc] at hrun
          have hCeq : C = sortCert cert := by
            have := hrun
            simp only [Except.ok.injEq, Option.some.injEq] at this
            exact this.symm
          obtain ⟨h1, _, h3⟩ := processCands_closed hpack hpc
            (by intro k vs hm f hf; exact absurd hm (List.not_mem_nil _))
          subst hCeq
          constructor
          · intro k vs hm f hf
            exact mem_keysOf_sortCert.2 (h1 k vs (mem_sortCert.1 hm) f hf)
          · refine mem_keysOf_sortCert.2 (h3 a ?_)
            unfold candidatesOf
            exact List.mem_append.2 (Or.inr (List.mem_singleton.2 rfl))

/-! ### Canonical certificates -/

theorem pfAsc_one : pfAsc 1 = [] := by
  rw [pfAsc, Nat.primeFactorsList_one]
  rfl

theorem mem_pfAsc {r m : Nat} (hm : 0 < m) : r ∈ pfAsc m ↔ r.Prime ∧ r ∣ m := by
  rw [pfAsc, List.mem_dedup, Nat.mem_primeFactorsList (Nat.pos_iff_ne_zero.1 hm)]

theorem pfAsc_sorted (m : Nat) : (pfAsc m).Sorted (· ≤ ·) :=
  List.Pairwise.sublist (List.dedup_sublist _) (Nat.primeFactorsList_sorted m)

theorem pfAsc_nodup (m : Nat) : (pfAsc m).Nodup := List.nodup_dedup _

theorem mem_dedupSort {x : Nat} {l : List Nat} : x ∈ dedupSort l ↔ x ∈ l := by
  rw [dedupSort, List.mem_dedup, mem_sortNat]

theorem dedupSort_sorted (l : List Nat) : (dedupSort l).Sorted (· ≤ ·) :=
  List.Pairwise.sublist (List.dedup_sublist _) (sortNat_sorted l)

theorem dedupSort_nodup (l : List Nat) : (dedupSort l).Nodup := List.nodup_dedup _

theorem keysOf_canonCert (s : List Nat) : keysOf (canonCert s) = dedupSort s := by
  unfold canonCert keysOf
  rw [List.map_map]
  have hcomp : (Prod.fst ∘ fun k : Nat => (k, some (pfAsc (k - 1)))) = fun k => k := rfl
  rw [hcomp]
  exact List.map_id' _

theorem mem_keysOf_canonCert {k : Nat} {s : List Nat} :
    k ∈ keysOf (canonCert s) ↔ k ∈ s := by
  rw [keysOf_canonCert, mem_dedupSort]

theorem canonCert_entries {s : List Nat} {e : Nat × Option (List Nat)}
    (h : e ∈ canonCert s) : e.2 = some (pfAsc (e.1 - 1)) := by
  rcases List.mem_map.1 h with ⟨k, _, rfl⟩
  rfl

theorem canonCert_nodup_keys (s : List Nat) : (keysOf (canonCert s)).Nodup := by
  rw [keysOf_canonCert]
  exact dedupSort_nodup s

theorem canonCert_congr {s t : List Nat} (h : ∀ x, x ∈ s ↔ x ∈ t) :
    canonCert s = canonCert t := by
  unfold canonCert
  congr 1
  exact sorted_nodup_ext (dedupSort_sorted s) (dedupSort_sorted t)
    (dedupSort_nodup s) (dedupSort_nodup t)
    (fun a => by rw [mem_dedupSort, mem_dedupSort]; exact h a)

theorem canonCert_two : canonCert [2] = [(2, some [])] := by
  have h1 : dedupSort [2] = [2] := by
    show ((sortNat [2]).dedup : List Nat) = [2]
    have h2 : sortNat [2] = [2] := rfl
    rw [h2, List.dedup_cons_of_not_mem (List.not_mem_nil 2), List.dedup_nil]
  unfold canonCert
  rw [h1, List.map_singleton]
  simp [pfAsc_one]

theorem goodKey_two (P : List Nat) : GoodKey P 2 := by
  refine ⟨Nat.prime_two, fun r hr hdvd => ?_⟩
  have : r = 1 := Nat.dvd_one.1 hdvd
  exact absurd this hr.one_lt.ne'

theorem goodKey_mono {P P' : List Nat} {k : Nat} (hPP : ∀ x ∈ P, x ∈ P')
    (h : GoodKey P k) : GoodKey P' k :=
  ⟨h.1, fun r hr hdvd => ⟨hPP r (h.2 r hr hdvd).1, (h.2 r hr hdvd).2⟩⟩

/-- A realizable oracle raises the `randbelow` `ValueError` on every
`n ≤ 1` (the bound `n - 2` of `randbelow` is non-positive). -/
theorem realizable_le_one {L : Oracle} (hL : Realizable L) {n : Nat} (hn : n ≤ 1)
    (fs : List Nat) : L n fs = .error .randbelowValueError := by
  obtain ⟨σ, hσ⟩ := hL n fs
  rw [hσ]
  unfold lucasFn
  rw [if_neg (by omega), if_pos (by omega)]

/-! ### Synthesis: the builder succeeds with the canonical certificate -/

theorem recurseFactors_synthesis {eval : Nat → List Nat → Except PErr (Option Cert)}
    {primes : List Nat} {B : Nat}
    (heval : ∀ f, f ∈ primes → f < B →
      eval f (primes.filter (fun q => q < f)) =
        .ok (some (canonCert (primes.filter (fun q => q < f) ++ [f])))) :
    ∀ {fs : List Nat} {cert : Cert},
      (∀ f ∈ fs, f ∈ primes ∧ f < B) →
      (∀ e ∈ cert, e.2 = some (pfAsc (e.1 - 1))) →
      (keysOf cert).Nodup →
      ∃ cert2, recurseFactors eval primes cert fs = .ok cert2 ∧
        (∀ e ∈ cert2, e.2 = some (pfAsc (e.1 - 1))) ∧
        (keysOf cert2).Nodup ∧
        (∀ k ∈ keysOf cert, k ∈ keysOf cert2) ∧
        (∀ k ∈ keysOf cert2, k ∈ keysOf cert ∨ k ∈ primes) := by
  intro fs
  induction fs with
  | nil =>
    intro cert hfs hinv1 hinv2
    exact ⟨cert, rfl, hinv1, hinv2, fun k hk => hk, fun k hk => Or.inl hk⟩
  | cons f fs' ih =>
    intro cert hfs hinv1 hinv2
    obtain ⟨hfP, hfB⟩ := hfs f (List.mem_cons_self f fs')
    have hev := heval f hfP hfB
    have hsubinv1 : ∀ e ∈ canonCert (primes.filter (fun q => q < f) ++ [f]),
        e.2 = some (pfAsc (e.1 - 1)) := fun e he => canonCert_entries he
    have hmerge1 : ∀ e ∈ mergeCert cert (canonCert (primes.filter (fun q => q < f) ++ [f])),
        e.2 = some (pfAsc (e.1 - 1)) := by
      intro e he
      rcases mem_mergeCert he with h | h
      · exact hinv1 e h
      · exact hsubinv1 e h
    have hmerge2 : (keysOf (mergeCert cert
        (canonCert (primes.filter (fun q => q < f) ++ [f])))).Nodup :=
      nodup_keysOf_mergeCert hinv2
    obtain ⟨cert2, hrun2, h1, h2, h3, h4⟩ :=
      ih (fun x hx => hfs x (List.mem_cons_of_mem f hx)) hmerge1 hmerge2
    refine ⟨cert2, ?_, h1, h2, ?_, ?_⟩
    · simp only [recurseFactors, hev]
      exact hrun2
    · intro k hk
      exact h3 k (mem_keysOf_mergeCert.2 (Or.inl hk))
    · intro k hk
      rcases h4 k hk with h | h
      · rcases mem_keysOf_mergeCert.1 h with h' | h'
        · exact Or.inl h'
        · rcases List.mem_append.1 (mem_keysOf_canonCert.1 h') with h'' | h''
          · exact Or.inr (List.mem_of_mem_filter h'')
          · rw [List.mem_singleton.1 h'']
            exact Or.inr hfP
      · exact Or.inr h

theorem processCands_synthesis {eval : Nat → List Nat → Except PErr (Option Cert)}
    {L : Oracle} {primes : List Nat} {B : Nat}
    (hL : ∀ m fsx, m.Prime → L m fsx = .ok true)
    (hprimes : ∀ q ∈ primes, q.Prime)
    (heval : ∀ f, f ∈ primes → f < B →
      eval f (primes.filter (fun q => q < f)) =
        .ok (some (canonCert (primes.filter (fun q => q < f) ++ [f])))) :
    ∀ {cs : List Nat} {cert : Cert},
      (∀ p ∈ cs, p = 2 ∨ (p.Prime ∧ p ≤ B ∧
        ∀ r, r.Prime → r ∣ p - 1 → r ∈ primes ∧ r < p)) →
      (∀ e ∈ cert, e.2 = some (pfAsc (e.1 - 1))) →
      (keysOf cert).Nodup →
      ∃ C, processCands eval L primes false cert cs = .ok (some C) ∧
        (∀ e ∈ C, e.2 = some (pfAsc (e.1 - 1))) ∧
        (keysOf C).Nodup ∧
        (∀ k ∈ keysOf cert, k ∈ keysOf C) ∧
        (∀ p ∈ cs, p ∈ keysOf C) ∧
        (∀ k ∈ keysOf C, k ∈ keysOf cert ∨ k ∈ primes ∨ k ∈ cs) := by
  intro cs
  induction cs with
  | nil =>
    intro cert hcs hinv1 hinv2
    exact ⟨cert, rfl, hinv1, hinv2, fun k hk => hk, by simp, fun k hk => Or.inl hk⟩
  | cons p rest ih =>
    intro cert hcs hinv1 hinv2
    by_cases hp2 : p = 2
    · subst hp2
      have hup1 : ∀ e ∈ updateEntry cert 2 (some []), e.2 = some (pfAsc (e.1 - 1)) := by
        intro e he
        rcases mem_updateEntry he with h | h
        · exact hinv1 e h
        · rw [h]
          simp [pfAsc_one]
      have hup2 : (keysOf (updateEntry cert 2 (some []))).Nodup :=
        nodup_keysOf_updateEntry hinv2
      obtain ⟨C, hrun, h1, h2, h3, h4, h5⟩ :=
        ih (fun x hx => hcs x (List.mem_cons_of_mem _ hx)) hup1 hup2
      refine ⟨C, ?_, h1, h2, ?_, ?_, ?_⟩
      · simp only [processCands, if_pos rfl]
        exact hrun
      · intro k hk
        exact h3 k (mem_keysOf_updateEntry.2 (Or.inl hk))
      · intro x hx
        rcases List.mem_cons.1 hx with rfl | hx'
        · exact h3 2 (mem_keysOf_updateEntry.2 (Or.inr rfl))
        · exact h4 x hx'
      · intro k hk
        rcases h5 k hk with h | h
        · rcases mem_keysOf_updateEntry.1 h with h' | h'
          · exact Or.inl h'
          · exact Or.inr (Or.inr (by rw [h']; exact List.mem_cons_self 2 rest))
        · rcases h with h | h
          · exact Or.inr (Or.inl h)
          · exact Or.inr (Or.inr (List.mem_cons_of_mem _ h))
    · rcases hcs p (List.mem_cons_self p rest) with hp2' | ⟨hpp, hpB, hpdiv⟩
      · exact absurd hp2' hp2
      have hppos : 0 < p - 1 := by
        have := hpp.two_le
        omega
      have hDprime : ∀ q ∈ primes.filter (fun q => q < p), q.Prime :=
        fun q hq => hprimes q (List.mem_of_mem_filter hq)
      have hcompD : ∀ r, r.Prime → r ∣ p - 1 → r ∈ primes.filter (fun q => q < p) := by
        intro r hr hrd
        obtain ⟨h1, h2⟩ := hpdiv r hr hrd
        exact List.mem_filter.2 ⟨h1, by simpa using h2⟩
      have hrem : (trialDivide (p - 1) (primes.filter (fun q => q < p))).1 = 1 :=
        (trialDivide_rem_one_iff hDprime hppos).2 hcompD
      have hsort : sortNat (trialDivide (p - 1) (primes.filter (fun q => q < p))).2 =
          pfAsc (p - 1) :=
        trialDivide_factors_canon hDprime hppos hcompD
      obtain ⟨_, _, _, hfs, _⟩ := trialDivide_char hDprime hppos
      have hLp : L p (trialDivide (p - 1) (primes.filter (fun q => q < p))).2 = .ok true :=
        hL p _ hpp
      have hup1 : ∀ e ∈ updateEntry cert p
          (some (sortNat (trialDivide (p - 1) (primes.filter (fun q => q < p))).2)),
          e.2 = some (pfAsc (e.1 - 1)) := by
        intro e he
        rcases mem_updateEntry he with h | h
        · exact hinv1 e h
        · rw [h]
          show some (sortNat _) = some (pfAsc (p - 1))
          rw [hsort]
      have hup2 : (keysOf (updateEntry cert p
          (some (sortNat (trialDivide (p - 1) (primes.filter (fun q => q < p))).2)))).Nodup :=
        nodup_keysOf_updateEntry hinv2
      have hfactors : ∀ f ∈ (trialDivide (p - 1) (primes.filter (fun q => q < p))).2,
          f ∈ primes ∧ f < B := by
        intro f hf
        obtain ⟨hfD, _⟩ := (hfs f).1 hf
        obtain ⟨hfP, hflt⟩ := List.mem_filter.1 hfD
        have hlt : f < p := by simpa using hflt
        exact ⟨hfP, by omega⟩
      obtain ⟨cert2, hrf, hc1, hc2, hc3, hc4⟩ :=
        recurseFactors_synthesis heval hfactors hup1 hup2
      obtain ⟨C, hrun, h1, h2, h3, h4, h5⟩ :=
        ih (fun x hx => hcs x (List.mem_cons_of_mem _ hx)) hc1 hc2
      refine ⟨C, ?_, h1, h2, ?_, ?_, ?_⟩
      · simp only [processCands, if_neg hp2]
        rw [hrem, if_neg (lt_irrefl 1), hLp, hrf]
        exact hrun
      · intro k hk
        exact h3 k (hc3 k (mem_keysOf_updateEntry.2 (Or.inl hk)))
      · intro x hx
        rcases List.mem_cons.1 hx with hxp | hx'
        · rw [hxp]
          exact h3 p (hc3 p (mem_keysOf_updateEntry.2 (Or.inr rfl)))
        · exact h4 x hx'
      · intro k hk
        rcases h5 k hk with h | h
        · rcases hc4 k h with h' | h'
          · rcases mem_keysOf_updateEntry.1 h' with h'' | h''
            · exact Or.inl h''
            · exact Or.inr (Or.inr (by rw [h'']; exact List.mem_cons_self p rest))
          · exact Or.inr (Or.inl h')
        · rcases h with h | h
          · exact Or.inr (Or.inl h)
          · exact Or.inr (Or.inr (List.mem_cons_of_mem _ h))

theorem prattsCore_two (L : Oracle) (fuel : Nat) (P : List Nat) (pt : Bool) :
    prattsCore L (fuel + 1) 2 P pt = .ok (some [(2, some [])]) := by
  simp [prattsCore]

/-- Synthesis: on a pool that recursively certifies itself (every element
prime with its predecessor's prime factors available below it) and a good
argument, the builder succeeds and returns exactly the canonical
certificate over pool and argument. -/
theorem prattsCore_synthesis {L : Oracle}
    (hL : ∀ m fsx, m.Prime → L m fsx = .ok true) :
    ∀ {fuel : Nat} {a : Nat} {S : List Nat},
      (∀ k ∈ S, GoodKey S k) → GoodKey S a → a ≠ 2 →
      (∀ x ∈ S, x < fuel) → a < fuel →
      prattsCore L fuel a S false = .ok (some (canonCert (S ++ [a]))) := by
  intro fuel
  induction fuel with
  | zero =>
    intro a S _ _ _ _ hfa
    omega
  | succ fuel ih =>
    intro a S hSgood haGood ha2 hfS hfa
    have heval : ∀ f, f ∈ sortNat S → f < fuel →
        prattsCore L fuel f ((sortNat S).filter (fun q => q < f)) false =
          .ok (some (canonCert ((sortNat S).filter (fun q => q < f) ++ [f]))) := by
      intro f hfP hfB
      have hfS' : f ∈ S := mem_sortNat.1 hfP
      have hgf : GoodKey S f := hSgood f hfS'
      by_cases hf2 : f = 2
      · subst hf2
        have hfilter : (sortNat S).filter (fun q => q < 2) = [] := by
          rw [List.filter_eq_nil_iff]
          intro q hq
          have hqp : q.Prime := (hSgood q (mem_sortNat.1 hq)).1
          have := hqp.two_le
          simp only [decide_eq_true_eq]
          omega
        rw [hfilter]
        cases fuel with
        | zero => omega
        | succ fuel' =>
          rw [show ([] : List Nat) ++ [2] = [2] from rfl, canonCert_two]
          exact prattsCore_two L fuel' [] false
      · refine ih ?_ ?_ hf2 ?_ hfB
        · intro k hk
          obtain ⟨hkS, hkf⟩ := List.mem_filter.1 hk
          have hkf' : k < f := by simpa using hkf
          have hg := hSgood k (mem_sortNat.1 hkS)
          refine ⟨hg.1, fun r hr hrd => ?_⟩
          obtain ⟨h1, h2⟩ := hg.2 r hr hrd
          refine ⟨List.mem_filter.2 ⟨mem_sortNat.2 h1, ?_⟩, h2⟩
          simp only [decide_eq_true_eq]
          omega
        · refine ⟨hgf.1, fun r hr hrd => ?_⟩
          obtain ⟨h1, h2⟩ := hgf.2 r hr hrd
          refine ⟨List.mem_filter.2 ⟨mem_sortNat.2 h1, ?_⟩, h2⟩
          simp only [decide_eq_true_eq]
          exact h2
        · intro x hx
          obtain ⟨hxS, hxf⟩ := List.mem_filter.1 hx
          have : x < f := by simpa using hxf
          omega
    have hcands : ∀ p ∈ candidatesOf S a, p = 2 ∨ (p.Prime ∧ p ≤ fuel ∧
        ∀ r, r.Prime → r ∣ p - 1 → r ∈ sortNat S ∧ r < p) := by
      intro p hp
      rcases List.mem_append.1 hp with hpS | hpa
      · have hpS' : p ∈ S := mem_sortNat.1 hpS
        by_cases hp2 : p = 2
        · exact Or.inl hp2
        · have hg := hSgood p hpS'
          refine Or.inr ⟨hg.1, by have := hfS p hpS'; omega, fun r hr hrd => ?_⟩
          obtain ⟨h1, h2⟩ := hg.2 r hr hrd
          exact ⟨mem_sortNat.2 h1, h2⟩
      · have hpa' : p = a := List.mem_singleton.1 hpa
        subst hpa'
        refine Or.inr ⟨haGood.1, by omega, fun r hr hrd => ?_⟩
        obtain ⟨h1, h2⟩ := haGood.2 r hr hrd
        exact ⟨mem_sortNat.2 h1, h2⟩
    obtain ⟨C, hrun, h1, h2, _, h4, h5⟩ :=
      @processCands_synthesis (fun f ps => prattsCore L fuel f ps false) L (sortNat S) fuel
        hL (fun q hq => (hSgood q (mem_sortNat.1 hq)).1) heval (candidatesOf S a) []
        hcands (by simp) (by simp [keysOf])
    have hCeq : sortCert C = canonCert (S ++ [a]) := by
      refine cert_ext_valued (fun k => some (pfAsc (k - 1))) ?_ ?_ ?_
      · intro e he
        exact h1 e (mem_sortCert.1 he)
      · intro e he
        exact canonCert_entries he
      · rw [keysOf_canonCert]
        refine sorted_nodup_ext (keysOf_sortCert_sorted C) (dedupSort_sorted _)
          (nodup_keysOf_sortCert h2) (dedupSort_nodup _) ?_
        intro k
        rw [mem_keysOf_sortCert, mem_dedupSort, List.mem_append, List.mem_singleton]
        constructor
        · intro hk
          rcases h5 k hk with h | h | h
          · exact absurd h (by simp [keysOf])
          · exact Or.inl (mem_sortNat.1 h)
          · rcases List.mem_append.1 h with h' | h'
            · exact Or.inl (mem_sortNat.1 h')
            · exact Or.inr (List.mem_singleton.1 h')
        · intro hk
          rcases hk with hk | hk
          · exact h4 k (List.mem_append.2 (Or.inl (mem_sortNat.2 hk)))
          · refine h4 k ?_
            rw [hk]
            exact List.mem_append.2 (Or.inr (List.mem_singleton.2 rfl))
    show prattsCore L (fuel + 1) a S false = _
    simp only [prattsCore, if_neg ha2]
    rw [hrun]
    show Except.ok (some (sortCert C)) = Except.ok (some (canonCert (S ++ [a])))
    rw [hCeq]

/-! ### Analysis: a successful run is canonical -/

theorem recurseFactors_analysis {eval : Nat → List Nat → Except PErr (Option Cert)}
    {primes : List Nat} (hpack : APack eval primes) :
    ∀ {fs : List Nat} {cert cert2 : Cert},
      recurseFactors eval primes cert fs = .ok cert2 →
      (∀ f ∈ fs, f ∈ primes) →
      (∀ e ∈ cert, e.2 = some (pfAsc (e.1 - 1))) →
      (keysOf cert).Nodup →
      (∀ k ∈ keysOf cert, GoodKey primes k) →
      (∀ e ∈ cert2, e.2 = some (pfAsc (e.1 - 1))) ∧
      (keysOf cert2).Nodup ∧
      (∀ k ∈ keysOf cert2, GoodKey primes k) ∧
      (∀ k ∈ keysOf cert, k ∈ keysOf cert2) ∧
      (∀ k ∈ keysOf cert2, k ∈ keysOf cert ∨ k ∈ primes) := by
  intro fs
  induction fs with
  | nil =>
    intro cert cert2 hrun _ h1 h2 h3
    simp only [recurseFactors] at hrun
    cases hrun
    exact ⟨h1, h2, h3, fun k hk => hk, fun k hk => Or.inl hk⟩
  | cons f fs' ih =>
    intro cert cert2 hrun hfsP h1 h2 h3
    simp only [recurseFactors] at hrun
    cases heval : eval f (primes.filter (fun q => q < f)) with
    | error e => rw [heval] at hrun; exact absurd hrun (by simp)
    | ok osub =>
      cases osub with
      | none => rw [heval] at hrun; exact absurd hrun (by simp)
      | some sub =>
        rw [heval] at hrun
        obtain ⟨hs1, _, hs3, hs4⟩ := hpack f sub heval
        have hm1 : ∀ e ∈ mergeCert cert sub, e.2 = some (pfAsc (e.1 - 1)) := by
          intro e he
          rcases mem_mergeCert he with h | h
          · exact h1 e h
          · exact hs1 e h
        have hm2 : (keysOf (mergeCert cert sub)).Nodup := nodup_keysOf_mergeCert h2
        have hm3 : ∀ k ∈ keysOf (mergeCert cert sub), GoodKey primes k := by
          intro k hk
          rcases mem_keysOf_mergeCert.1 hk with h | h
          · exact h3 k h
          · exact hs3 k h
        obtain ⟨g1, g2, g3, g4, g5⟩ :=
          ih hrun (fun x hx => hfsP x (List.mem_cons_of_mem f hx)) hm1 hm2 hm3
        refine ⟨g1, g2, g3, ?_, ?_⟩
        · intro k hk
          exact g4 k (mem_keysOf_mergeCert.2 (Or.inl hk))
        · intro k hk
          rcases g5 k hk with h | h
          · rcases mem_keysOf_mergeCert.1 h with h' | h'
            · exact Or.inl h'
            · rcases hs4 k h' with h'' | h''
              · exact Or.inr h''.1
              · rw [h'']
                exact Or.inr (hfsP f (List.mem_cons_self f fs'))
          · exact Or.inr h

theorem analysis_candidate_step {eval : Nat → List Nat → Except PErr (Option Cert)}
    {L : Oracle} {primes : List Nat}
    (hreal : Realizable L) (hpack : APack eval primes)
    {p : Nat} {rest : List Nat} {cert : Cert} {C : Cert}
    (hrun : processCands eval L primes false cert (p :: rest) = .ok (some C))
    (hinv1 : ∀ e ∈ cert, e.2 = some (pfAsc (e.1 - 1)))
    (hinv2 : (keysOf cert).Nodup)
    (hinv3 : ∀ k ∈ keysOf cert, GoodKey primes k)
    (hbelow : ∀ x ∈ primes, x < p → x ∈ keysOf cert) :
    ∃ cert2, processCands eval L primes false cert2 rest = .ok (some C) ∧
      (∀ e ∈ cert2, e.2 = some (pfAsc (e.1 - 1))) ∧
      (keysOf cert2).Nodup ∧
      (∀ k ∈ keysOf cert2, GoodKey primes k) ∧
      (∀ k ∈ keysOf cert, k ∈ keysOf cert2) ∧
      p ∈ keysOf cert2 ∧
      (∀ k ∈ keysOf cert2, k ∈ keysOf cert ∨ k ∈ primes ∨ k = p) ∧
      GoodKey primes p := by
  by_cases hp2 : p = 2
  · subst hp2
    simp only [processCands, if_pos rfl] at hrun
    refine ⟨updateEntry cert 2 (some []), hrun, ?_, nodup_keysOf_updateEntry hinv2,
      ?_, ?_, mem_keysOf_updateEntry.2 (Or.inr rfl), ?_, goodKey_two primes⟩
    · intro e he
      rcases mem_updateEntry he with h | h
      · exact hinv1 e h
      · rw [h]
        simp [pfAsc_one]
    · intro k hk
      rcases mem_keysOf_updateEntry.1 hk with h | h
      · exact hinv3 k h
      · rw [h]
        exact goodKey_two primes
    · exact fun k hk => mem_keysOf_updateEntry.2 (Or.inl hk)
    · intro k hk
      rcases mem_keysOf_updateEntry.1 hk with h | h
      · exact Or.inl h
      · exact Or.inr (Or.inr h)
  · simp only [processCands, if_neg hp2] at hrun
    by_cases hrem : 1 < (trialDivide (p - 1) (primes.filter (fun q => q < p))).1
    · rw [if_pos hrem] at hrun
      exact absurd hrun (by simp)
    · rw [if_neg hrem] at hrun
      cases hLp : L p (trialDivide (p - 1) (primes.filter (fun q => q < p))).2 with
      | error e => rw [hLp] at hrun; exact absurd hrun (by simp)
      | ok b =>
        cases b with
        | false => rw [hLp] at hrun; exact absurd hrun (by simp)
        | true =>
          rw [hLp] at hrun
          have hp1 : ¬ p ≤ 1 := by
            intro hple
            rw [realizable_le_one hreal hple _] at hLp
            exact absurd hLp (by simp)
          have hp3 : 2 < p := by omega
          have hppos : 0 < p - 1 := by omega
          have hDprime : ∀ q ∈ primes.filter (fun q => q < p), q.Prime := by
            intro q hq
            obtain ⟨hqP, hqlt⟩ := List.mem_filter.1 hq
            have hql : q < p := by simpa using hqlt
            exact (hinv3 q (hbelow q hqP hql)).1
          obtain ⟨hd1, hd2, hd3, hd4, hd5⟩ := trialDivide_char hDprime hppos
          have hrem1 : (trialDivide (p - 1) (primes.filter (fun q => q < p))).1 = 1 := by
            omega
          have hcomp : ∀ r, r.Prime → r ∣ p - 1 →
              r ∈ primes.filter (fun q => q < p) :=
            (trialDivide_rem_one_iff hDprime hppos).1 hrem1
          have hcompfs : ∀ r, r.Prime → r ∣ p - 1 →
              r ∈ (trialDivide (p - 1) (primes.filter (fun q => q < p))).2 :=
            fun r hr hrd => (hd4 r).2 ⟨hcomp r hr hrd, hrd⟩
          have hpprime : p.Prime := realizable_true_prime hreal hLp hcompfs
          have hgood : GoodKey primes p := by
            refine ⟨hpprime, fun r hr hrd => ?_⟩
            obtain ⟨hq1, hq2⟩ := List.mem_filter.1 (hcomp r hr hrd)
            exact ⟨hq1, by simpa using hq2⟩
          have hsort : sortNat (trialDivide (p - 1) (primes.filter (fun q => q < p))).2 =
              pfAsc (p - 1) :=
            trialDivide_factors_canon hDprime hppos hcomp
          have h11 : ∀ e ∈ updateEntry cert p
              (some (sortNat (trialDivide (p - 1) (primes.filter (fun q => q < p))).2)),
              e.2 = some (pfAsc (e.1 - 1)) := by
            intro e he
            rcases mem_updateEntry he with h | h
            · exact hinv1 e h
            · rw [h]
              show some (sortNat _) = some (pfAsc (p - 1))
              rw [hsort]
          have h12 : (keysOf (updateEntry cert p
              (some (sortNat (trialDivide (p - 1)
                (primes.filter (fun q => q < p))).2)))).Nodup :=
            nodup_keysOf_updateEntry hinv2
          have h13 : ∀ k ∈ keysOf (updateEntry cert p
              (some (sortNat (trialDivide (p - 1) (primes.filter (fun q => q < p))).2))),
              GoodKey primes k := by
            intro k hk
            rcases mem_keysOf_updateEntry.1 hk with h | h
            · exact hinv3 k h
            · rw [h]
              exact hgood
          have hfsP : ∀ f ∈ (trialDivide (p - 1) (primes.filter (fun q => q < p))).2,
              f ∈ primes := by
            intro f hf
            obtain ⟨hfD, _⟩ := (hd4 f).1 hf
            exact List.mem_of_mem_filter hfD
          cases hrf : recurseFactors eval primes
              (updateEntry cert p (some (sortNat (trialDivide (p - 1)
                (primes.filter (fun q => q < p))).2)))
              (trialDivide (p - 1) (primes.filter (fun q => q < p))).2 with
          | error e => rw [hrf] at hrun; exact absurd hrun (by simp)
          | ok cert2 =>
            rw [hrf] at hrun
            obtain ⟨g1, g2, g3, g4, g5⟩ :=
              recurseFactors_analysis hpack hrf hfsP h11 h12 h13
            refine ⟨cert2, hrun, g1, g2, g3, ?_, ?_, ?_, hgood⟩
            · intro k hk
              exact g4 k (mem_keysOf_updateEntry.2 (Or.inl hk))
            · exact g4 p (mem_keysOf_updateEntry.2 (Or.inr rfl))
            · intro k hk
              rcases g5 k hk with h | h
              · rcases mem_keysOf_updateEntry.1 h with h' | h'
                · exact Or.inl h'
                · exact Or.inr (Or.inr h')
              · exact Or.inr (Or.inl h)

theorem processCands_analysis_loop {eval : Nat → List Nat → Except PErr (Option Cert)}
    {L : Oracle} {primes : List Nat} {a : Nat}
    (hreal : Realizable L) (hpack : APack eval primes) :
    ∀ {restP : List Nat} {cert C : Cert},
      restP.Sorted (· ≤ ·) →
      (∀ x ∈ restP, x ∈ primes) →
      (∀ x ∈ primes, x ∉ restP → x ∈ keysOf cert) →
      (∀ e ∈ cert, e.2 = some (pfAsc (e.1 - 1))) →
      (keysOf cert).Nodup →
      (∀ k ∈ keysOf cert, GoodKey primes k) →
      (∀ k ∈ keysOf cert, k ∈ primes ∨ k = a) →
      processCands eval L primes false cert (restP ++ [a]) = .ok (some C) →
      (∀ e ∈ C, e.2 = some (pfAsc (e.1 - 1))) ∧
      (keysOf C).Nodup ∧
      (∀ k ∈ keysOf C, GoodKey primes k) ∧
      (∀ x ∈ primes, x ∈ keysOf C) ∧
      a ∈ keysOf C ∧ GoodKey primes a ∧
      (∀ k ∈ keysOf C, k ∈ primes ∨ k = a) := by
  intro restP
  induction restP with
  | nil =>
    intro cert C _ _ hHK hinv1 hinv2 hinv3 hupper hrun
    obtain ⟨cert2, hrun2, s2, s3, s4, s5, s6, s7, s8⟩ :=
      analysis_candidate_step hreal hpack hrun hinv1 hinv2 hinv3
        (fun x hx _ => hHK x hx (List.not_mem_nil x))
    have hC : cert2 = C := by
      simpa [processCands] using hrun2
    subst hC
    refine ⟨s2, s3, s4, ?_, s6, s8, ?_⟩
    · intro x hx
      exact s5 x (hHK x hx (List.not_mem_nil x))
    · intro k hk
      rcases s7 k hk with h | h | h
      · exact hupper k h
      · exact Or.inl h
      · exact Or.inr h
  | cons q restP' ih =>
    intro cert C hsorted hrestP hHK hinv1 hinv2 hinv3 hupper hrun
    have hsc := List.sorted_cons.1 hsorted
    have hbelow : ∀ x ∈ primes, x < q → x ∈ keysOf cert := by
      intro x hx hlt
      refine hHK x hx ?_
      intro hmem
      rcases List.mem_cons.1 hmem with hxq | h
      · omega
      · have := hsc.1 x h
        omega
    obtain ⟨cert2, hrun2, s2, s3, s4, s5, s6, s7, s8⟩ :=
      analysis_candidate_step hreal hpack hrun hinv1 hinv2 hinv3 hbelow
    have hq : q ∈ primes := hrestP q (List.mem_cons_self q restP')
    refine ih hsc.2 (fun x hx => hrestP x (List.mem_cons_of_mem q hx)) ?_ s2 s3 s4 ?_ hrun2
    · intro x hx hnx
      by_cases hxq : x = q
      · rw [hxq]
        exact s6
      · refine s5 x (hHK x hx ?_)
        intro hmem
        rcases List.mem_cons.1 hmem with h | h
        · exact hxq h
        · exact hnx h
    · intro k hk
      rcases s7 k hk with h | h | h
      · exact hupper k h
      · exact Or.inl h
      · rw [h]
        exact Or.inl hq

/-- Analysis: any successful non-partial run of the core builder with a
realizable oracle and a validated pool returns either the fixed base-case
certificate (argument 2) or exactly the canonical certificate over pool
and argument, with every pool element and the argument a good key. -/
theorem prattsCore_analysis {L : Oracle} (hreal : Realizable L) :
    ∀ {fuel : Nat} {a : Nat} {S : List Nat} {C : Cert},
      (∀ q ∈ S, 1 < q) →
      prattsCore L fuel a S false = .ok (some C) →
      (a = 2 ∧ C = [(2, some [])]) ∨
      (a ≠ 2 ∧ C = canonCert (S ++ [a]) ∧
        (∀ k ∈ S, GoodKey S k) ∧ GoodKey S a) := by
  intro fuel
  induction fuel with
  | zero =>
    intro a S C _ hrun
    exact absurd hrun (by simp [prattsCore])
  | succ fuel ih =>
    intro a S C hS hrun
    simp only [prattsCore] at hrun
    by_cases ha2 : a = 2
    · rw [if_pos ha2] at hrun
      left
      refine ⟨ha2, ?_⟩
      have : some [((2 : Nat), some ([] : List Nat))] = some C := by
        simpa using hrun
      simpa using this.symm
    · rw [if_neg ha2] at hrun
      right
      have hpack : APack (fun f ps => prattsCore L fuel f ps false) (sortNat S) := by
        intro f sub heval
        have hfilter1 : ∀ q ∈ (sortNat S).filter (fun q => q < f), 1 < q :=
          fun q hq => hS q (mem_sortNat.1 (List.mem_of_mem_filter hq))
        rcases ih hfilter1 heval with ⟨hf2, hsubeq⟩ | ⟨_, hsubeq, hgood, hgoodf⟩
        · subst hsubeq
          refine ⟨?_, by simp [keysOf], ?_, ?_⟩
          · intro e he
            rw [List.mem_singleton.1 he]
            simp [pfAsc_one]
          · intro k hk
            simp only [keysOf, List.map_cons, List.map_nil, List.mem_singleton] at hk
            rw [hk]
            exact goodKey_two _
          · intro k hk
            simp only [keysOf, List.map_cons, List.map_nil, List.mem_singleton] at hk
            rw [hk, hf2]
            exact Or.inr rfl
        · subst hsubeq
          refine ⟨fun e he => canonCert_entries he, canonCert_nodup_keys _, ?_, ?_⟩
          · intro k hk
            rcases List.mem_append.1 (mem_keysOf_canonCert.1 hk) with h | h
            · exact goodKey_mono (fun x hx => List.mem_of_mem_filter hx) (hgood k h)
            · rw [List.mem_singleton.1 h]
              exact goodKey_mono (fun x hx => List.mem_of_mem_filter hx) hgoodf
          · intro k hk
            rcases List.mem_append.1 (mem_keysOf_canonCert.1 hk) with h | h
            · obtain ⟨h1, h2⟩ := List.mem_filter.1 h
              exact Or.inl ⟨h1, by simpa using h2⟩
            · exact Or.inr (List.mem_singleton.1 h)
      cases hpc : processCands (fun f ps => prattsCore L fuel f ps false) L
          (sortNat S) false [] (candidatesOf S a) with
      | error e => rw [hpc] at hrun; exact absurd hrun (by simp)
      | ok oc =>
        cases oc with
        | none => rw [hpc] at hrun; exact absurd hrun (by simp)
        | some cert =>
          rw [hpc] at hrun
          have hCeq : sortCert cert = C := by
            simpa using hrun
          have hpc' : processCands (fun f ps => prattsCore L fuel f ps false) L
              (sortNat S) false [] (sortNat S ++ [a]) = .ok (some cert) := hpc
          obtain ⟨l1, l2, l3, l4, l5, l6, l7⟩ :=
            processCands_analysis_loop hreal hpack (sortNat_sorted S)
              (fun x hx => hx) (fun x hx hnx => absurd hx hnx)
              (by intro e he; exact absurd he (List.not_mem_nil e))
              (by simp [keysOf])
              (by intro k hk; exact absurd hk (by simp [keysOf]))
              (by intro k hk; exact absurd hk (by simp [keysOf]))
              hpc'
          have hgoodS : ∀ k ∈ S, GoodKey S k := by
            intro k hk
            have hkk : k ∈ keysOf cert := l4 k (mem_sortNat.2 hk)
            exact goodKey_mono (fun x hx => mem_sortNat.1 hx) (l3 k hkk)
          have hgoodA : GoodKey S a :=
            goodKey_mono (fun x hx => mem_sortNat.1 hx) l6
          refine ⟨ha2, ?_, hgoodS, hgoodA⟩
          rw [← hCeq]
          refine cert_ext_valued (fun k => some (pfAsc (k - 1))) ?_ ?_ ?_
          · intro e he
            exact l1 e (mem_sortCert.1 he)
          · intro e he
            exact canonCert_entries he
          · rw [keysOf_canonCert]
            refine sorted_nodup_ext (keysOf_sortCert_sorted cert) (dedupSort_sorted _)
              (nodup_keysOf_sortCert l2) (dedupSort_nodup _) ?_
            intro k
            rw [mem_keysOf_sortCert, mem_dedupSort, List.mem_append, List.mem_singleton]
            constructor
            · intro hk
              rcases l7 k hk with h | h
              · exact Or.inl (mem_sortNat.1 h)
              · exact Or.inr h
            · intro hk
              rcases hk with hk | hk
              · exact l4 k (mem_sortNat.2 hk)
              · rw [hk]
                exact l5

/-! ### Error provenance helpers -/

theorem lucasLoop_ne_error {σ : Nat → Nat} {n : Nat} {fs : List Nat} :
    ∀ {t i : Nat} {e : PErr}, lucasLoop σ n fs t i ≠ .error e := by
  intro t
  induction t with
  | zero =>
    intro i e h
    simp [lucasLoop] at h
  | succ t ih =>
    intro i e h
    by_cases hc : lucasCond n (lucasBase σ n i) fs = true
    · rw [lucasLoop, if_pos hc] at h
      simp at h
    · rw [lucasLoop, if_neg hc] at h
      exact ih h

/-- The only failure a `_lucas` call can raise is the `randbelow`
`ValueError`. -/
theorem realizable_error {L : Oracle} (hL : Realizable L) {n : Nat} {fs : List Nat}
    {e : PErr} (h : L n fs = .error e) : e = .randbelowValueError := by
  obtain ⟨σ, hσ⟩ := hL n fs
  rw [hσ] at h
  unfold lucasFn at h
  by_cases h2 : n = 2
  · rw [if_pos h2] at h
    simp at h
  · rw [if_neg h2] at h
    by_cases hle : n ≤ 2
    · rw [if_pos hle] at h
      have : PErr.randbelowValueError = e := by simpa using h
      exact this.symm
    · rw [if_neg hle] at h
      exact absurd h lucasLoop_ne_error

/-- Failures of the factor-recursion loop come from a recursive build or
are the `factor not prime` invariant violation. -/
theorem recurseFactors_error {eval : Nat → List Nat → Except PErr (Option Cert)}
    {primes : List Nat} :
    ∀ {fs : List Nat} {cert : Cert} {e : PErr},
      recurseFactors eval primes cert fs = .error e →
      (∃ f ps, eval f ps = .error e) ∨ ∃ f, e = .factorNotPrime f := by
  intro fs
  induction fs with
  | nil =>
    intro cert e h
    simp [recurseFactors] at h
  | cons f fs' ih =>
    intro cert e h
    simp only [recurseFactors] at h
    cases hev : eval f (primes.filter (fun q => q < f)) with
    | error e' =>
      rw [hev] at h
      have he : e' = e := by simpa using h
      subst he
      exact Or.inl ⟨f, _, hev⟩
    | ok osub =>
      cases osub with
      | none =>
        rw [hev] at h
        have he : PErr.factorNotPrime f = e := by simpa using h
        exact Or.inr ⟨f, he.symm⟩
      | some sub =>
        rw [hev] at h
        exact ih h

/-! ### Trial-count and ordering helpers -/

theorem lucasLoop_agree {σ σ' : Nat → Nat} {n : Nat} {fs : List Nat} :
    ∀ {t i : Nat}, i + t ≤ 100 → (∀ j, j < 100 → σ j = σ' j) →
      lucasLoop σ n fs t i = lucasLoop σ' n fs t i := by
  intro t
  induction t with
  | zero =>
    intro i _ _
    rfl
  | succ t ih =>
    intro i hle hagree
    have hbase : lucasBase σ n i = lucasBase σ' n i := by
      unfold lucasBase
      rw [hagree i (by omega)]
    show (if lucasCond n (lucasBase σ n i) fs then Except.ok true
        else lucasLoop σ n fs t (i + 1)) =
      (if lucasCond n (lucasBase σ' n i) fs then Except.ok true
        else lucasLoop σ' n fs t (i + 1))
    rw [hbase]
    by_cases hc : lucasCond n (lucasBase σ' n i) fs = true
    · rw [if_pos hc, if_pos hc]
    · rw [if_neg hc, if_neg hc]
      exact ih (by omega) hagree

theorem isAscending_of_sorted : ∀ {l : List Nat}, l.Sorted (· ≤ ·) → isAscending l = true := by
  intro l
  induction l with
  | nil =>
    intro _
    rfl
  | cons x xs ih =>
    intro h
    cases xs with
    | nil => rfl
    | cons y ys =>
      rw [List.sorted_cons] at h
      show (decide (x ≤ y) && isAscending (y :: ys)) = true
      rw [Bool.and_eq_true, decide_eq_true_eq]
      exact ⟨h.1 y (List.mem_cons_self y ys), ih h.2⟩

/-! ### Claims -/

/-- Claim C2, counterexample: `pratts(7, [2])` raises
`IncompleteFactorization` reporting `6` (that is, `p - 1`), while the
cofactor remaining after the successful division of `6` by the pool
element `2` is `3`, not `6` — so the failure does not report the reduced
cofactor the claim describes. -/
theorem C2_cex :
    pratts (oracleOf fun _ => 0) 8 7 [2] false = .error (.incompleteFactorization 6) ∧
    (trialDivide 6 [2]).1 = 3 ∧ (6 : Nat) ≠ 3 := by
  refine ⟨rfl, by decide, by decide⟩

/-- Claim C2, amended: whenever trial division leaves a cofactor greater
than one for a candidate `p` and partial mode is off, the loop fails with
`IncompleteFactorization` reporting `p - 1` — the full predecessor of the
first offending candidate (the code interpolates `str(p - 1)`), not the
reduced cofactor `remaining`. -/
theorem C2_amended :
    ∀ (eval : Nat → List Nat → Except PErr (Option Cert)) (L : Oracle)
      (primes : List Nat) (cert : Cert) (p : Nat) (rest : List Nat),
      p ≠ 2 →
      1 < (trialDivide (p - 1) (primes.filter (fun q => q < p))).1 →
      processCands eval L primes false cert (p :: rest) =
        .error (.incompleteFactorization (p - 1)) := by
  intro eval L primes cert p rest hp2 hrem
  simp only [processCands, if_neg hp2, if_pos hrem]
  rfl

/-- Witness for the amended claim C2 at a concrete input. -/
theorem C2_witness :
    processCands (fun _ _ => Except.ok (some [])) (oracleOf fun _ => 0) [2] false [] [7] =
      .error (.incompleteFactorization 6) :=
  C2_amended _ _ [2] [] 7 [] (by decide) (by decide)

/-- Claim C4, counterexample: with `n = 4` and a draw stream producing `1`,
the base drawn at the first trial is `2 + 1 % 2 = 3`, which is not in
`[2, n - 1) = [2, 2]` — the claimed range excludes bases the search
actually draws. -/
theorem C4_cex :
    ¬ (2 ≤ lucasBase (fun _ => 1) 4 0 ∧ lucasBase (fun _ => 1) 4 0 ≤ 4 - 2) := by
  decide

/-- Claim C4, amended: for every `n > 2` every base drawn by a trial lies
in `[2, n)` (that is, `2 ≤ a ≤ n - 1`, one more than the claimed upper
bound), for every possible value of the random source; and the search
performs at most 100 trials — its outcome depends only on the first 100
draws of the stream. -/
theorem C4_amended :
    (∀ (σ : Nat → Nat) (n i : Nat), 2 < n →
      2 ≤ lucasBase σ n i ∧ lucasBase σ n i < n) ∧
    (∀ (σ σ' : Nat → Nat) (n : Nat) (fs : List Nat),
      (∀ j, j < 100 → σ j = σ' j) → lucasFn σ n fs = lucasFn σ' n fs) := by
  constructor
  · intro σ n i hn
    exact lucasBase_range σ hn i
  · intro σ σ' n fs hagree
    unfold lucasFn
    by_cases h2 : n = 2
    · rw [if_pos h2, if_pos h2]
    · rw [if_neg h2, if_neg h2]
      by_cases hle : n ≤ 2
      · rw [if_pos hle, if_pos hle]
      · rw [if_neg hle, if_neg hle]
        exact lucasLoop_agree (by omega) hagree

/-- Witness for the amended claim C4 at a concrete input. -/
theorem C4_witness : 2 ≤ lucasBase (fun _ => 1) 5 0 ∧ lucasBase (fun _ => 1) 5 0 < 5 :=
  C4_amended.1 (fun _ => 1) 5 0 (by decide)

/-- Claim C5, counterexample: with pool `{2, 5}` and target `3` the
candidate list is `[2, 5, 3]`, which is not ascending; and observably,
`pratts(15, [2, 23])` fails reporting cofactor `22` because the pool
element `23` is processed before the smaller target `15` (ascending
processing would fail at `15` first, reporting `14`). -/
theorem C5_cex :
    isAscending (candidatesOf [2, 5] 3) = false ∧
    pratts (oracleOf fun _ => 0) 8 15 [2, 23] false =
      .error (.incompleteFactorization 22) := by
  refine ⟨by decide, rfl⟩

/-- Claim C5, amended: the candidate list is the ascending-sorted pool with
the target appended at the end; it is ascending whenever the target is at
least every pool element, but not in general. -/
theorem C5_amended :
    (∀ (P : List Nat) (a : Nat), candidatesOf P a = sortNat P ++ [a]) ∧
    (∀ (P : List Nat) (a : Nat), (∀ q ∈ P, q ≤ a) →
      isAscending (candidatesOf P a) = true) := by
  constructor
  · intro P a
    rfl
  · intro P a hle
    apply isAscending_of_sorted
    show (sortNat P ++ [a]).Pairwise (· ≤ ·)
    rw [List.pairwise_append]
    refine ⟨sortNat_sorted P, List.pairwise_singleton _ _, ?_⟩
    intro x hx b hb
    rw [List.mem_singleton] at hb
    rw [hb]
    exact hle x (mem_sortNat.1 hx)

/-- Witness for the amended claim C5 at a concrete input. -/
theorem C5_witness : isAscending (candidatesOf [2, 5] 7) = true :=
  C5_amended.2 [2, 5] 7 (by decide)

/-- Claim C6: if the witness search answers `false` for a candidate whose
predecessor was fully factored, the candidate loop immediately returns the
Python `None` (`.ok none`) as a normal value — no failure is raised — and
the core builder propagates that `None` as its own return value. -/
theorem C6_composite_null :
    (∀ (eval : Nat → List Nat → Except PErr (Option Cert)) (L : Oracle)
      (primes : List Nat) (pt : Bool) (cert : Cert) (p : Nat) (rest : List Nat),
      p ≠ 2 →
      (trialDivide (p - 1) (primes.filter (fun q => q < p))).1 = 1 →
      L p (trialDivide (p - 1) (primes.filter (fun q => q < p))).2 = .ok false →
      processCands eval L primes pt cert (p :: rest) = .ok none) ∧
    (∀ (L : Oracle) (fuel : Nat) (a : Nat) (P : List Nat) (pt : Bool),
      a ≠ 2 →
      processCands (fun f ps => prattsCore L fuel f ps false) L (sortNat P) pt []
        (candidatesOf P a) = .ok none →
      prattsCore L (fuel + 1) a P pt = .ok none) := by
  constructor
  · intro eval L primes pt cert p rest hp2 hrem hL
    simp only [processCands, if_neg hp2]
    rw [hrem, if_neg (lt_irrefl 1), hL]
  · intro L fuel a P pt ha2 hpc
    simp only [prattsCore, if_neg ha2]
    rw [hpc]

/-- Witness for claim C6 at a concrete input. -/
theorem C6_witness :
    processCands (fun _ _ => Except.ok (some [])) (fun _ _ => Except.ok false)
      [2] false [] [3] = .ok none :=
  C6_composite_null.1 _ _ [2] false [] 3 [] (by decide) (by decide) rfl

/-- Claim C8, counterexample: `pratts(2, [1])` does not return the base
certificate — pool validation runs before the base case and raises
`ValueError`, so the base case does not hold for every pool. -/
theorem C8_cex :
    pratts (oracleOf fun _ => 0) 8 2 [1] false = .error .valueErrorPool ∧
    pratts (oracleOf fun _ => 0) 8 2 [1] false ≠ .ok (some [(2, some [])]) := by
  refine ⟨rfl, fun h => ?_⟩
  exact Except.noConfusion ((show pratts (oracleOf fun _ => 0) 8 2 [1] false =
    Except.error PErr.valueErrorPool from rfl).symm.trans h)

/-- Claim C8, amended: for argument 2 and every valid pool (all elements
greater than one), the builder returns exactly `{2: []}` without
processing the pool — the result does not depend on the oracle, the pool
contents or the partial flag. -/
theorem C8_amended :
    ∀ (L : Oracle) (fuel : Nat) (P : List Int) (pt : Bool),
      0 < fuel → (∀ q ∈ P, 1 < q) →
      pratts L fuel 2 P pt = .ok (some [(2, some [])]) := by
  intro L fuel P pt hfuel hP
  obtain ⟨m, rfl⟩ : ∃ m, fuel = m + 1 := ⟨fuel - 1, by omega⟩
  have hall : P.all (fun p => 1 < p) = true := by
    rw [List.all_eq_true]
    intro p hp
    simpa using hP p hp
  unfold pratts
  rw [if_neg (show ¬ (2 : Int) < 1 by norm_num),
    if_neg (not_not_intro hall)]
  exact prattsCore_two L m (P.map Int.toNat) pt

/-- Witness for the amended claim C8 at a concrete input. -/
theorem C8_witness :
    pratts (oracleOf fun _ => 0) 1 2 [3] false = .ok (some [(2, some [])]) :=
  C8_amended (oracleOf fun _ => 0) 1 [3] false (by decide) (by decide)

/-- Claim C9: `pratts` never mutates the caller-supplied pool.  The
embedding threads the caller's list through the call (`prattsCall`); the
source only reads it — `list(primes)` copies it and every later operation
rebinds the local name to a fresh list — so the pool state returned to the
caller is the input list itself, and the result is that of `pratts` on the
same values. -/
theorem C9_frame :
    ∀ (L : Oracle) (fuel : Nat) (a : Int) (ps : List Int) (pt : Bool),
      (prattsCall L fuel a ps pt).2 = ps ∧
      (prattsCall L fuel a ps pt).1 = pratts L fuel a ps pt := by
  intro L fuel a ps pt
  unfold prattsCall pratts
  rw [List.map_id]
  by_cases h1 : a < 1
  · rw [if_pos h1, if_pos h1]
    exact ⟨rfl, rfl⟩
  · rw [if_neg h1, if_neg h1]
    by_cases h2 : ¬ ps.all (fun p => 1 < p) = true
    · rw [if_pos h2, if_pos h2]
      exact ⟨rfl, rfl⟩
    · rw [if_neg h2, if_neg h2]
      exact ⟨rfl, rfl⟩

/-- Claim C10, counterexample: with argument `1` and the valid pool `{3}`,
the call does not reach the witness search at all — the pool candidate `3`
is processed first and raises `IncompleteFactorization` (one of the
specified failure kinds), because `3 - 1 = 2` cannot be factored with no
pool elements below `3`. -/
theorem C10_cex :
    pratts (oracleOf fun _ => 0) 8 1 [3] false = .error (.incompleteFactorization 2) := rfl

/-- Claim C10, amended: argument `1` passes input validation (it is not
rejected as non-positive), and whenever every pool candidate is fully
processed — in particular with the empty pool — evaluation reaches the
witness search with `n = 1`, whose first trial calls `randbelow(-1)` and
raises the sampler's out-of-contract `ValueError`. -/
theorem C10_amended :
    ∀ (σ : Nat → Nat) (fuel : Nat), 0 < fuel →
      pratts (oracleOf σ) fuel 1 [] false = .error .randbelowValueError := by
  intro σ fuel hfuel
  obtain ⟨m, rfl⟩ : ∃ m, fuel = m + 1 := ⟨fuel - 1, by omega⟩
  rfl

/-- Witness for the amended claim C10 at a concrete input. -/
theorem C10_witness :
    pratts (oracleOf fun _ => 0) 1 1 [] false = .error .randbelowValueError :=
  C10_amended (fun _ => 0) 1 (by decide)

/-- Claim C1, counterexample: `pratts(23, [2, 11], partial=True)` raises
`IncompleteFactorization` for `10` — the draw stream constantly producing
`3` makes the witness search accept `23` at base `5`, and the recursive
sub-call `pratts(11, [2])` (made without `partial`) cannot factor `10`
with pool `{2}` and raises. -/
theorem C1_cex :
    pratts (oracleOf fun _ => 3) 8 23 [2, 11] true =
      .error (.incompleteFactorization 10) := rfl

/-- Claim C1, amended: in partial mode the candidate loop itself never
raises `IncompleteFactorization` — a candidate whose predecessor cannot be
fully factored is recorded as `p → unknown` and processing continues — but
recursive sub-calls on discovered factors run with `partial = False`, and
an `IncompleteFactorization` they raise propagates: the loop is free of
that failure exactly when the recursive builds are. -/
theorem C1_amended :
    (∀ (eval : Nat → List Nat → Except PErr (Option Cert)) (L : Oracle)
      (primes : List Nat) (cert : Cert) (p : Nat) (rest : List Nat),
      p ≠ 2 →
      1 < (trialDivide (p - 1) (primes.filter (fun q => q < p))).1 →
      processCands eval L primes true cert (p :: rest) =
        processCands eval L primes true (updateEntry cert p none) rest) ∧
    (∀ (eval : Nat → List Nat → Except PErr (Option Cert)) (L : Oracle)
      (primes : List Nat),
      Realizable L →
      (∀ f ps x, eval f ps ≠ .error (.incompleteFactorization x)) →
      ∀ (cands : List Nat) (cert : Cert) (x : Nat),
        processCands eval L primes true cert cands ≠
          .error (.incompleteFactorization x)) := by
  constructor
  · intro eval L primes cert p rest hp2 hrem
    simp only [processCands, if_neg hp2, if_pos hrem]
    rfl
  · intro eval L primes hreal hev cands
    induction cands with
    | nil =>
      intro cert x h
      simp [processCands] at h
    | cons p rest ih =>
      intro cert x h
      by_cases hp2 : p = 2
      · subst hp2
        simp only [processCands, if_pos rfl] at h
        exact ih _ x h
      · simp only [processCands, if_neg hp2] at h
        by_cases hrem : 1 < (trialDivide (p - 1) (primes.filter (fun q => q < p))).1
        · rw [if_pos hrem] at h
          rw [if_pos trivial] at h
          exact ih _ x h
        · rw [if_neg hrem] at h
          cases hLp : L p (trialDivide (p - 1) (primes.filter (fun q => q < p))).2 with
          | error e =>
            rw [hLp] at h
            have he : e = .randbelowValueError := realizable_error hreal hLp
            have hxe : e = PErr.incompleteFactorization x := by simpa using h
            rw [he] at hxe
            exact absurd hxe (by simp)
          | ok b =>
            cases b with
            | false =>
              rw [hLp] at h
              simp at h
            | true =>
              rw [hLp] at h
              cases hrf : recurseFactors eval primes
                  (updateEntry cert p (some (sortNat (trialDivide (p - 1)
                    (primes.filter (fun q => q < p))).2)))
                  (trialDivide (p - 1) (primes.filter (fun q => q < p))).2 with
              | error e =>
                rw [hrf] at h
                have he : e = PErr.incompleteFactorization x := by simpa using h
                subst he
                rcases recurseFactors_error hrf with ⟨f, ps, hfe⟩ | ⟨f, hfe⟩
                · exact hev f ps x hfe
                · exact absurd hfe (by simp)
              | ok cert2 =>
                rw [hrf] at h
                exact ih _ x h

/-- Witness for the amended claim C1 at a concrete input. -/
theorem C1_witness :
    processCands (fun _ _ => Except.ok (some [])) (oracleOf fun _ => 0) [2] true [] [7] =
      processCands (fun _ _ => Except.ok (some [])) (oracleOf fun _ => 0) [2] true
        (updateEntry [] 7 none) [] :=
  C1_amended.1 _ _ [2] [] 7 [] (by decide) (by decide)

/-- Claim C3: round-trip self-verification.  If a non-partial build with a
realizable oracle (any possible behaviour of the randomized witness
search) on a validated pool returns a certificate `C` (necessarily with no
unknown entries), then re-building the same target over `C`'s keys — with
fresh randomness, modelled as any oracle that succeeds on true primes —
succeeds, raising no `IncompleteFactorization`, and returns a certificate
with the same keys and the same factor lists: the very same `C`.  The fuel
bounds only discharge the embedding's recursion-depth artefact. -/
theorem C3_roundtrip {L₁ L₂ : Oracle} {fuel₁ fuel₂ : Nat} {a : Nat} {P : List Nat}
    {C : Cert}
    (hreal : Realizable L₁)
    (hP : ∀ q ∈ P, 1 < q)
    (hL₂ : ∀ m fsx, m.Prime → L₂ m fsx = .ok true)
    (hrun : prattsCore L₁ fuel₁ a P false = .ok (some C))
    (hfuel : ∀ k ∈ keysOf C, k < fuel₂) (hfa : a < fuel₂) :
    prattsCore L₂ fuel₂ a (keysOf C) false = .ok (some C) := by
  rcases prattsCore_analysis hreal hP hrun with ⟨ha2, hCeq⟩ | ⟨ha2, hCeq, hgoodS, hgoodA⟩
  · subst ha2
    subst hCeq
    obtain ⟨m, rfl⟩ : ∃ m, fuel₂ = m + 1 := ⟨fuel₂ - 1, by omega⟩
    exact prattsCore_two L₂ m _ false
  · subst hCeq
    have hKmem : ∀ k, k ∈ keysOf (canonCert (P ++ [a])) ↔ (k ∈ P ∨ k = a) := by
      intro k
      rw [mem_keysOf_canonCert, List.mem_append, List.mem_singleton]
    have hSsub : ∀ x ∈ P, x ∈ keysOf (canonCert (P ++ [a])) :=
      fun x hx => (hKmem x).2 (Or.inl hx)
    have hgoodK : ∀ k ∈ keysOf (canonCert (P ++ [a])),
        GoodKey (keysOf (canonCert (P ++ [a]))) k := by
      intro k hk
      rcases (hKmem k).1 hk with h | h
      · exact goodKey_mono hSsub (hgoodS k h)
      · rw [h]
        exact goodKey_mono hSsub hgoodA
    have hgoodKA : GoodKey (keysOf (canonCert (P ++ [a]))) a :=
      goodKey_mono hSsub hgoodA
    have hsynth := prattsCore_synthesis hL₂ hgoodK hgoodKA ha2 hfuel hfa
    rw [hsynth]
    have hcc : canonCert (keysOf (canonCert (P ++ [a])) ++ [a]) = canonCert (P ++ [a]) := by
      apply canonCert_congr
      intro x
      rw [List.mem_append, List.mem_singleton, hKmem x]
      constructor
      · rintro ((h | h) | h)
        · exact List.mem_append.2 (Or.inl h)
        · rw [h]
          exact List.mem_append.2 (Or.inr (List.mem_singleton.2 rfl))
        · rw [h]
          exact List.mem_append.2 (Or.inr (List.mem_singleton.2 rfl))
      · intro h
        rcases List.mem_append.1 h with h | h
        · exact Or.inl (Or.inl h)
        · exact Or.inr (List.mem_singleton.1 h)
    rw [hcc]

/-- Witness for claim C3 at a concrete input: building 3 over pool `{2}`
yields `{2: [], 3: [2]}`, and re-building 3 over its keys `{2, 3}` returns
the same certificate. -/
theorem C3_witness :
    prattsCore (fun _ _ => Except.ok true) 4 3 [2, 3] false =
      .ok (some [(2, some []), (3, some [2])]) := by
  have hreal : Realizable (oracleOf fun _ => 0) := fun n fs => ⟨fun _ => 0, rfl⟩
  have hrun : prattsCore (oracleOf fun _ => 0) 3 3 [2] false =
      Except.ok (some [(2, some []), (3, some [2])]) := rfl
  exact C3_roundtrip hreal (by decide) (fun _ _ _ => rfl) hrun (by decide) (by decide)

/-- Claim C7: every certificate returned by a top-level `pratts` call is
closed — each integer appearing in a non-sentinel factor list is itself a
key of the certificate (transitively, down to the entry for 2). -/
theorem C7_closure :
    ∀ (L : Oracle) (fuel : Nat) (a : Int) (ps : List Int) (pt : Bool) (C : Cert),
      pratts L fuel a ps pt = .ok (some C) → Closed C := by
  intro L fuel a ps pt C hrun
  unfold pratts at hrun
  by_cases h1 : a < 1
  · rw [if_pos h1] at hrun
    exact absurd hrun (by simp)
  · rw [if_neg h1] at hrun
    by_cases h2 : ¬ ps.all (fun p => 1 < p) = true
    · rw [if_pos h2] at hrun
      exact absurd hrun (by simp)
    · rw [if_neg h2] at hrun
      exact (prattsCore_closed hrun).1

/-- Witness for claim C7 at a concrete input. -/
theorem C7_witness : Closed [(2, some []), (3, some [2])] := by
  have hrun : pratts (oracleOf fun _ => 0) 3 3 [2] false =
      Except.ok (some [(2, some []), (3, some [2])]) := rfl
  exact C7_closure _ _ _ _ _ _ hrun

end Pratts
